import Mathlib

/-!
Verification development for the DynamicPetriNetToolKit colored Petri net
engine (files `pntk/elements.py` and `pntk/petri_net.py`).

The embedding is handle-based: Python objects owned by the net (places,
transitions, arcs) live in insertion-ordered association lists keyed by a
natural-number id standing for the `uuid4` identity; Python's object
references (`arc.node_in`, the values of `ins`/`outs`, ...) become ids
resolved through the net.  Python `dict`s are association lists with the
`d[k] = v` / `d[k] += w` update semantics mirrored by `dset` / `dmodify`
below; dictionaries produced by the Python code never hold a duplicate
key, so theorems about general nets carry `Nodup` hypotheses where a proof
needs that fact.  Python `float` time values are embedded as `Rat` (exact
arithmetic standing in for IEEE floats).  A Python operation that can
raise (`KeyError` on a missing dict key, `AttributeError` on the
half-initialized Arc) is embedded as `Except Net _`, the error payload
carrying the net state at the moment the exception escapes, since the
mutations already performed persist.
-/

/-- Lookup in a Python-style dict: the value of the first entry with the
given key (with no duplicate keys, the only one). -/
def dget {κ β : Type} [DecidableEq κ] : List (κ × β) → κ → Option β
  | [], _ => none
  | e :: rest, k => if e.1 = k then some e.2 else dget rest k

/-- Python `d[k] = v`: overwrite in place when the key is present (keeping
its position), append otherwise. -/
def dset {κ β : Type} [DecidableEq κ] (d : List (κ × β)) (k : κ) (v : β) : List (κ × β) :=
  if (dget d k).isSome then d.map (fun e => if e.1 = k then (k, v) else e) else d ++ [(k, v)]

/-- Python `d[k] = f(d[k])` for a key known to be present: update the
entry in place; a no-op when the key is absent. -/
def dmodify {κ β : Type} [DecidableEq κ] (d : List (κ × β)) (k : κ) (f : β → β) :
    List (κ × β) :=
  d.map (fun e => if e.1 = k then (e.1, f e.2) else e)

/-- The key list of a dict, in insertion order (Python `d.keys()`). -/
def dkeys {κ β : Type} (d : List (κ × β)) : List κ := d.map Prod.fst

/-- A marking / arc weight table: color-key to (possibly negative) count. -/
abbrev Marking := List (String × Int)

/-- `Place` (elements.py): identity lives in the surrounding dict key; the
neighbor and incident-arc dicts store ids only, their values being
recoverable through the net.  The `Layout` visual data and the unused
`condition` hook carry no engine state and are omitted. -/
structure PlaceData where
  name : String
  marking : Marking
  initial_marking : Marking
  ins : List Nat
  outs : List Nat
  in_arcs : List Nat
  out_arcs : List Nat
  processing_time : Rat
  time : Rat
  deriving DecidableEq, Repr

/-- `Place.__init__`: `marking` aliases the argument and `initial_marking`
is an entry-by-entry copy of it, so both start as the same list. -/
def mkPlace (name : String) (initial : Marking) : PlaceData :=
  { name := name, marking := initial, initial_marking := initial
    ins := [], outs := [], in_arcs := [], out_arcs := []
    processing_time := 0, time := 0 }

/-- `Place.initialize`: write every initial-marking entry back into the
current marking (extra current keys, if any, are left in place). -/
def restoreMarking (p : PlaceData) : PlaceData :=
  { p with marking := p.initial_marking.foldl (fun m kv => dset m kv.1 kv.2) p.marking }

/-- `Transition` (elements.py): `status` is `"unready"` or `"ready"`,
`work_status` is `"unfiring"` or `"firing"`, `consumption` the fixed
duration, `time` the remaining time of an in-flight firing.  The unused
`condition` predicate is omitted. -/
structure TransitionData where
  name : String
  ins : List Nat
  outs : List Nat
  in_arcs : List Nat
  out_arcs : List Nat
  status : String
  work_status : String
  consumption : Rat
  time : Rat
  priority : Int
  deriving DecidableEq, Repr

/-- `Transition.__init__`. -/
def mkTransition (name : String) (time : Rat) (priority : Int) : TransitionData :=
  { name := name, ins := [], outs := [], in_arcs := [], out_arcs := []
    status := "unready", work_status := "unfiring"
    consumption := time, time := 0, priority := priority }

/-- `Transition.tick`: while `firing`, subtract `dt` from the remaining
time; at zero-or-below clamp to zero and report completion. -/
def tickT (t : TransitionData) (dt : Rat) : Bool × TransitionData :=
  if t.work_status = "firing" then
    let time' := t.time - dt
    if time' ≤ 0 then (true, { t with time := 0 })
    else (false, { t with time := time' })
  else (false, t)

/-- A Python reference to a Place or a Transition, as an id tagged with
the kind the `isinstance` checks dispatch on. -/
inductive NodeRef where
  | place : Nat → NodeRef
  | trans : Nat → NodeRef
  deriving DecidableEq, Repr

/-- The `.id` attribute of a referenced node. -/
def NodeRef.nid : NodeRef → Nat
  | .place i => i
  | .trans i => i

/-- `Arc.direction`. -/
inductive Direction where
  | PtoT : Direction
  | TtoP : Direction
  deriving DecidableEq, Repr

/-- A fully initialized `Arc` (elements.py): `ann` models the Python
field `annotation`, the per-color weight dict. -/
structure ArcData where
  direction : Direction
  node_in : NodeRef
  node_out : NodeRef
  name : String
  ann : Marking
  deriving DecidableEq, Repr

/-- A value in `name_node`, which maps names to Places, Transitions or
Arcs. -/
inductive NEntry where
  | pl : Nat → NEntry
  | tr : Nat → NEntry
  | ar : Nat → NEntry
  deriving DecidableEq, Repr

/-- `ColoredPetriNet` (petri_net.py).  An arc entry whose data is `none`
is the half-initialized object `Arc.__init__` leaves behind when the
endpoint kinds are invalid (it has an id but no `direction`, `name` or
weight attributes; touching those raises `AttributeError`). -/
structure Net where
  name : String
  places : List (Nat × PlaceData)
  transitions : List (Nat × TransitionData)
  arcs : List (Nat × Option ArcData)
  adj : List ((Nat × Nat) × Nat)
  name_node : List (String × NEntry)
  id_name : List (Nat × String)
  marking_types : List String
  deriving DecidableEq, Repr

/-- `ColoredPetriNet.__init__` (the constructor's readiness recompute over
zero transitions is the identity). -/
def mkNet (name : String) : Net :=
  { name := name, places := [], transitions := [], arcs := []
    adj := [], name_node := [], id_name := [], marking_types := [] }

/-- Resolve an arc id to a fully initialized arc: `none` both for an
unknown id and for a half-initialized arc object. -/
def getArc (n : Net) (aid : Nat) : Option ArcData :=
  match dget n.arcs aid with
  | some (some a) => some a
  | _ => none

/-- Project the state out of a stateful result that returns no value
(`.error` carries the state at the escaping exception). -/
def stE : Except Net Net → Net
  | .ok m => m
  | .error m => m

/-- Project the state out of a stateful result carrying a return value. -/
def stP {α : Type} : Except Net (α × Net) → Net
  | .ok (_, m) => m
  | .error m => m

/-- Project the returned value (Python return; `none` when an exception
escaped instead). -/
def retP {α : Type} : Except Net (α × Net) → Option α
  | .ok (a, _) => some a
  | .error _ => none

/-- The `if ... >= 0: return True` scan of `arc_ready`'s `PtoT` branch
over the weight dict, against the source place's marking: `none` is the
`KeyError` raised when a weight key is absent from the marking. -/
def anyReady (m : Marking) : Marking → Option Bool
  | [] => some false
  | (k, w) :: rest =>
    match dget m k with
    | none => none
    | some v => if v - w ≥ 0 then some true else anyReady m rest

/-- `ColoredPetriNet.arc_ready`: a `PtoT` arc is ready as soon as any one
weight key is covered by the source marking; every other arc answers
`False`.  `none` embeds the exceptions: `KeyError` from a missing marking
key, and `AttributeError` when `node_in` is not a Place held by the net
(a Transition has no `marking` attribute). -/
def arc_ready (n : Net) (a : ArcData) : Option Bool :=
  match a.direction with
  | .PtoT =>
    match a.node_in with
    | .place pid =>
      match dget n.places pid with
      | some p => anyReady p.marking a.ann
      | none => none
    | .trans _ => none
  | .TtoP => some false

/-- The `for arc in transition.in_arcs.values()` loop of
`transition_ready_check`, as the pure readiness value it computes: `none`
when some arc resolution or `arc_ready` raises. -/
def readyLoop (n : Net) : List Nat → Option Bool
  | [] => some true
  | aid :: rest =>
    match getArc n aid with
    | none => none
    | some a =>
      match arc_ready n a with
      | none => none
      | some true => readyLoop n rest
      | some false => some false

/-- The status-field write of `transition_ready_check`: `'ready'` after a
fully successful loop, `'unready'` at the first failing arc. -/
def setStatus (n : Net) (ti : Nat) (b : Bool) : Net :=
  { n with
      transitions := dmodify n.transitions ti
        (fun u => { u with status := if b then "ready" else "unready" }) }

/-- `ColoredPetriNet.transition_ready_check`: compute readiness over the
transition's `in_arcs` and cache it in the `status` field; an exception
inside the loop escapes before any status write. -/
def transition_ready_check (n : Net) (ti : Nat) : Except Net (Bool × Net) :=
  match dget n.transitions ti with
  | none => .error n
  | some t =>
    match readyLoop n t.in_arcs with
    | none => .error n
    | some b => .ok (b, setStatus n ti b)

/-- The `for t in self.transitions.values()` loop of
`update_ready_transition` over a fixed id list (statuses already written
persist when a later check raises). -/
def updateReadyGo (n : Net) : List Nat → Except Net Net
  | [] => .ok n
  | ti :: rest =>
    match transition_ready_check n ti with
    | .error n' => .error n'
    | .ok (_, n') => updateReadyGo n' rest

/-- `ColoredPetriNet.update_ready_transition`. -/
def update_ready_transition (n : Net) : Except Net Net :=
  updateReadyGo n (dkeys n.transitions)

/-- An argument to `add_node`, in the constructor shape the Python
`Place` / `Transition` initializers produce (the id stands for the fresh
`uuid4`). -/
inductive NodeArg where
  | pl : Nat → String → Marking → NodeArg
  | tr : Nat → String → Rat → Int → NodeArg
  deriving DecidableEq, Repr

/-- `ColoredPetriNet.add_node`: file the node under its id, record the
name and id indexes, and recompute readiness (the non-node argument
branch only debug-prints and is outside this model's argument type). -/
def add_node (n : Net) (x : NodeArg) : Except Net Net :=
  match x with
  | .pl i nm init =>
    update_ready_transition
      { n with places := dset n.places i (mkPlace nm init)
               name_node := dset n.name_node nm (.pl i)
               id_name := dset n.id_name i nm }
  | .tr i nm time prio =>
    update_ready_transition
      { n with transitions := dset n.transitions i (mkTransition nm time prio)
               name_node := dset n.name_node nm (.tr i)
               id_name := dset n.id_name i nm }

/-- The `.name` attribute of a referenced node, resolved through the net
(the model keeps node state net-owned, so `add_arc` endpoints are assumed
registered; an unregistered ref resolves to a default name). -/
def nodeName (n : Net) : NodeRef → String
  | .place i => ((dget n.places i).map (fun p => p.name)).getD ""
  | .trans i => ((dget n.transitions i).map (fun t => t.name)).getD ""

/-- `Arc.__init__` with its `annotation` parameter: kind dispatch fixes
the direction; two same-kind endpoints abandon initialization, leaving
the object without `direction` / `name` / weight attributes (`none`). -/
def mkArcData (n : Net) (r1 r2 : NodeRef) (ann : Marking) : Option ArcData :=
  match r1, r2 with
  | .place _, .trans _ =>
    some { direction := .PtoT, node_in := r1, node_out := r2
           name := nodeName n r1 ++ "->" ++ nodeName n r2, ann := ann }
  | .trans _, .place _ =>
    some { direction := .TtoP, node_in := r1, node_out := r2
           name := nodeName n r1 ++ "->" ++ nodeName n r2, ann := ann }
  | _, _ => none

/-- `node1.outs[node2.id] = node2; node1.out_arcs[arc.id] = arc` on
either node kind (id-set semantics of a Python dict keyed by id). -/
def addOut (n : Net) (r : NodeRef) (tgt aid : Nat) : Net :=
  match r with
  | .place i =>
    { n with places := dmodify n.places i (fun p =>
        { p with outs := if tgt ∈ p.outs then p.outs else p.outs ++ [tgt]
                 out_arcs := if aid ∈ p.out_arcs then p.out_arcs else p.out_arcs ++ [aid] }) }
  | .trans i =>
    { n with transitions := dmodify n.transitions i (fun t =>
        { t with outs := if tgt ∈ t.outs then t.outs else t.outs ++ [tgt]
                 out_arcs := if aid ∈ t.out_arcs then t.out_arcs else t.out_arcs ++ [aid] }) }

/-- `node2.ins[node1.id] = node1; node2.in_arcs[arc.id] = arc`. -/
def addIn (n : Net) (r : NodeRef) (src aid : Nat) : Net :=
  match r with
  | .place i =>
    { n with places := dmodify n.places i (fun p =>
        { p with ins := if src ∈ p.ins then p.ins else p.ins ++ [src]
                 in_arcs := if aid ∈ p.in_arcs then p.in_arcs else p.in_arcs ++ [aid] }) }
  | .trans i =>
    { n with transitions := dmodify n.transitions i (fun t =>
        { t with ins := if src ∈ t.ins then t.ins else t.ins ++ [src]
                 in_arcs := if aid ∈ t.in_arcs then t.in_arcs else t.in_arcs ++ [aid] }) }

/-- `ColoredPetriNet.add_arc` generalized over the weight dict handed to
the `Arc` constructor (`add_arc` itself always passes the constructor
default).  The arc object — half-initialized or not — is filed under its
id and the neighbor indexes are wired before `arc.name` is touched, so an
invalid endpoint pair leaves those mutations behind and raises
(`AttributeError`), embedded as `.error` carrying the mutated net. -/
def add_arc_ann (n : Net) (r1 r2 : NodeRef) (aid : Nat) (ann : Marking) : Except Net Net :=
  let arcd := mkArcData n r1 r2 ann
  let n1 := { n with arcs := dset n.arcs aid arcd }
  let n2 := addOut n1 r1 r2.nid aid
  let n3 := addIn n2 r2 r1.nid aid
  match arcd with
  | none => .error n3
  | some a =>
    update_ready_transition
      { n3 with name_node := dset n3.name_node a.name (.ar aid)
                id_name := dset n3.id_name aid a.name
                adj := dset n3.adj (r1.nid, r2.nid) aid }

/-- `ColoredPetriNet.add_arc`: the two-argument entry point, with the
`Arc` constructor's default weight dict mapping color `"0"` to `1`. -/
def add_arc (n : Net) (r1 r2 : NodeRef) (aid : Nat) : Except Net Net :=
  add_arc_ann n r1 r2 aid [("0", 1)]

/-- The `for k in marking.keys(): marking[k] -= annotation[k]` loop of the
input phase, iterating the marking's own keys and looking each up in the
weight dict.  A key absent from the weights is a `KeyError`: the flag
turns `false` and the entries already visited keep their decrements while
the offender and everything after it stay untouched. -/
def subMark (ann : Marking) : Marking → Marking × Bool
  | [] => ([], true)
  | (k, v) :: rest =>
    match dget ann k with
    | none => ((k, v) :: rest, false)
    | some w =>
      let r := subMark ann rest
      ((k, v - w) :: r.1, r.2)

/-- The `marking[k] += annotation[k]` loop of the output phase, same
iteration shape as `subMark`. -/
def addMark (ann : Marking) : Marking → Marking × Bool
  | [] => ([], true)
  | (k, v) :: rest =>
    match dget ann k with
    | none => ((k, v) :: rest, false)
    | some w =>
      let r := addMark ann rest
      ((k, v + w) :: r.1, r.2)

/-- Overwrite one place's marking in the net. -/
def setMarking (n : Net) (pid : Nat) (m : Marking) : Net :=
  { n with places := dmodify n.places pid (fun p => { p with marking := m }) }

/-- One iteration of `fire_transition`'s input loop: mutate the arc's
source place through `subMark`; a half-initialized arc or a `node_in`
without a marking raises before touching anything, a `KeyError` inside
the loop leaves the partial decrements behind. -/
def consumeArc (n : Net) (aid : Nat) : Except Net Net :=
  match getArc n aid with
  | none => .error n
  | some a =>
    match a.node_in with
    | .place pid =>
      match dget n.places pid with
      | none => .error n
      | some p =>
        if (subMark a.ann p.marking).2 then .ok (setMarking n pid (subMark a.ann p.marking).1)
        else .error (setMarking n pid (subMark a.ann p.marking).1)
    | .trans _ => .error n

/-- One iteration of the output loop: mutate the arc's destination place
through `addMark`. -/
def produceArc (n : Net) (aid : Nat) : Except Net Net :=
  match getArc n aid with
  | none => .error n
  | some a =>
    match a.node_out with
    | .place pid =>
      match dget n.places pid with
      | none => .error n
      | some p =>
        if (addMark a.ann p.marking).2 then .ok (setMarking n pid (addMark a.ann p.marking).1)
        else .error (setMarking n pid (addMark a.ann p.marking).1)
    | .trans _ => .error n

/-- The `for arc in ... .in_arcs.values()` input loop. -/
def fireInputs (n : Net) : List Nat → Except Net Net
  | [] => .ok n
  | aid :: rest =>
    match consumeArc n aid with
    | .error n' => .error n'
    | .ok n' => fireInputs n' rest

/-- The `for arc in ... .out_arcs.values()` output loop. -/
def fireOutputs (n : Net) : List Nat → Except Net Net
  | [] => .ok n
  | aid :: rest =>
    match produceArc n aid with
    | .error n' => .error n'
    | .ok n' => fireOutputs n' rest

/-- `ColoredPetriNet.fire_transition`: reject a transition the net does
not own or one failing the readiness check (returning `False`), otherwise
consume along every in-arc, produce along every out-arc, recompute
readiness net-wide and return `True`. -/
def fire_transition (n : Net) (ti : Nat) : Except Net (Bool × Net) :=
  match dget n.transitions ti with
  | none => .ok (false, n)
  | some _ =>
    match transition_ready_check n ti with
    | .error n' => .error n'
    | .ok (false, n1) => .ok (false, n1)
    | .ok (true, n1) =>
      match dget n1.transitions ti with
      | none => .error n1
      | some t1 =>
        match fireInputs n1 t1.in_arcs with
        | .error n2 => .error n2
        | .ok n2 =>
          match fireOutputs n2 t1.out_arcs with
          | .error n3 => .error n3
          | .ok n3 =>
            match update_ready_transition n3 with
            | .error n4 => .error n4
            | .ok n4 => .ok (true, n4)

/-- The state write of a successful `on_fire_transition`: `work_status`
to `firing`, remaining time to the consumption duration. -/
def startFiring (n : Net) (ti : Nat) : Net :=
  { n with
      transitions := dmodify n.transitions ti
        (fun u => { u with work_status := "firing", time := u.consumption }) }

/-- `ColoredPetriNet.on_fire_transition`: same rejection tests plus
"already firing"; on success consume the inputs immediately, set
`work_status` to `firing` and the remaining time to the consumption
duration — with no readiness recompute and no token production yet. -/
def on_fire_transition (n : Net) (ti : Nat) : Except Net (Bool × Net) :=
  match dget n.transitions ti with
  | none => .ok (false, n)
  | some _ =>
    match transition_ready_check n ti with
    | .error n' => .error n'
    | .ok (false, n1) => .ok (false, n1)
    | .ok (true, n1) =>
      match dget n1.transitions ti with
      | none => .error n1
      | some t1 =>
        if t1.work_status = "firing" then .ok (false, n1)
        else
          match fireInputs n1 t1.in_arcs with
          | .error n2 => .error n2
          | .ok n2 => .ok (true, startFiring n2 ti)

/-- Write back the in-place mutation `Transition.tick` performed on the
transition object held under `ti`. -/
def writeT (n : Net) (ti : Nat) (t : TransitionData) : Net :=
  { n with transitions := dmodify n.transitions ti (fun _ => t) }

/-- The `transition.work_status = 'unfiring'` write after a completed
firing. -/
def stopFiring (n : Net) (ti : Nat) : Net :=
  { n with
      transitions := dmodify n.transitions ti
        (fun u => { u with work_status := "unfiring" }) }

/-- The `for transition in self.transitions.values()` loop of `tick` over
a fixed id list, accumulating the completed names: each transition is
ticked; a completer produces on its out-arcs, returns to `unfiring` and
triggers a net-wide readiness recompute before the loop moves on. -/
def tickGo (dt : Rat) (n : Net) : List Nat → List String → Except Net (List String × Net)
  | [], acc => .ok (acc, n)
  | ti :: rest, acc =>
    match dget n.transitions ti with
    | none => tickGo dt n rest acc
    | some t =>
      if (tickT t dt).1 then
        match fireOutputs (writeT n ti (tickT t dt).2) (tickT t dt).2.out_arcs with
        | .error n2 => .error n2
        | .ok n2 =>
          match update_ready_transition (stopFiring n2 ti) with
          | .error n4 => .error n4
          | .ok n4 => tickGo dt n4 rest (acc ++ [t.name])
      else tickGo dt (writeT n ti (tickT t dt).2) rest acc

/-- `ColoredPetriNet.tick`. -/
def tick (n : Net) (dt : Rat) : Except Net (List String × Net) :=
  tickGo dt n (dkeys n.transitions) []

/-- `ColoredPetriNet.reset_net`: restore every place's marking from its
recorded initial marking. -/
def reset_net (n : Net) : Net :=
  { n with places := n.places.map (fun e => (e.1, restoreMarking e.2)) }

/-- `ColoredPetriNet.reset`: `reset_net` followed by a readiness
recompute (transition `work_status` / remaining time are untouched). -/
def reset (n : Net) : Except Net Net :=
  update_ready_transition (reset_net n)

/-- One caller-driven engine operation, for quantifying over operation
sequences. -/
inductive Op where
  | addNode : NodeArg → Op
  | addArc : NodeRef → NodeRef → Nat → Op
  | fire : Nat → Op
  | onFire : Nat → Op
  | tickBy : Rat → Op
  | doReset : Op
  deriving DecidableEq, Repr

/-- Run one operation for its state effect (an escaping exception leaves
the mutated state behind exactly as in Python). -/
def applyOp (n : Net) : Op → Net
  | .addNode x => stE (add_node n x)
  | .addArc r1 r2 aid => stE (add_arc n r1 r2 aid)
  | .fire ti => stP (fire_transition n ti)
  | .onFire ti => stP (on_fire_transition n ti)
  | .tickBy dt => stP (tick n dt)
  | .doReset => stE (reset n)

/-- Run a sequence of engine operations. -/
def applyOps (n : Net) (l : List Op) : Net := l.foldl applyOp n

/-- The cached `status` of one transition agrees with a fresh readiness
recomputation against the net's current markings. -/
def GoodT (n : Net) (t : TransitionData) : Prop :=
  readyLoop n t.in_arcs = some true ∧ t.status = "ready" ∨
  readyLoop n t.in_arcs = some false ∧ t.status = "unready"

instance (n : Net) (t : TransitionData) : Decidable (GoodT n t) := by
  unfold GoodT
  infer_instance

/-- Every transition's cached `status` is fresh: it agrees with a fresh
`transition_ready_check` recomputation against the current markings. -/
def Fresh (n : Net) : Prop := ∀ e ∈ n.transitions, GoodT n e.2

instance (n : Net) : Decidable (Fresh n) := by
  unfold Fresh
  infer_instance

/-- The weight the input loop subtracts from place `pid` at color `k`
along arc `aid` (zero when the arc is not sourced at `pid`). -/
def inCon (arcs : List (Nat × Option ArcData)) (aid pid : Nat) (k : String) : Int :=
  match dget arcs aid with
  | some (some a) =>
    match a.node_in with
    | .place s => if s = pid then (dget a.ann k).getD 0 else 0
    | .trans _ => 0
  | _ => 0

/-- Total weight a list of in-arcs subtracts from place `pid` at `k`. -/
def inSum (arcs : List (Nat × Option ArcData)) (l : List Nat) (pid : Nat) (k : String) : Int :=
  (l.map (fun aid => inCon arcs aid pid k)).sum

/-- The weight the output loop adds to place `pid` at color `k` along arc
`aid`. -/
def outCon (arcs : List (Nat × Option ArcData)) (aid pid : Nat) (k : String) : Int :=
  match dget arcs aid with
  | some (some a) =>
    match a.node_out with
    | .place s => if s = pid then (dget a.ann k).getD 0 else 0
    | .trans _ => 0
  | _ => 0

/-- Total weight a list of out-arcs adds to place `pid` at `k`. -/
def outSum (arcs : List (Nat × Option ArcData)) (l : List Nat) (pid : Nat) (k : String) : Int :=
  (l.map (fun aid => outCon arcs aid pid k)).sum

/-- Total token count of color `k` across all places of the net. -/
def colorTotal (n : Net) (k : String) : Int :=
  (n.places.map (fun e => (dget e.2.marking k).getD 0)).sum

/-- The total weight the arc weight dicts dictate for color `k` over a
list of arc ids. -/
def annTotal (arcs : List (Nat × Option ArcData)) (l : List Nat) (k : String) : Int :=
  (l.map (fun aid =>
    match dget arcs aid with
    | some (some a) => (dget a.ann k).getD 0
    | _ => 0)).sum

/-- Relates a net to one that differs only in transitions' remaining-time
counters (the effect of the non-completing portion of a tick pass). -/
def OnlyTime (n n' : Net) : Prop :=
  n'.places = n.places ∧ n'.arcs = n.arcs ∧
  n'.transitions.map (fun e => (e.1, { e.2 with time := 0 })) =
    n.transitions.map (fun e => (e.1, { e.2 with time := 0 }))

/-- Decidable safety of one in-arc for the readiness scan: the arc object
is fully initialized, and a `PtoT` arc resolves its source place with
every weight key present in the marking, so `arc_ready` cannot raise. -/
def arcSafe (n : Net) (aid : Nat) : Bool :=
  match getArc n aid with
  | none => false
  | some a =>
    match a.direction with
    | .TtoP => true
    | .PtoT =>
      match a.node_in with
      | .place s =>
        match dget n.places s with
        | some p => (dkeys a.ann).all (fun k => decide (k ∈ dkeys p.marking))
        | none => false
      | .trans _ => false

/-- Decidable safety of the whole readiness recompute: every transition's
in-arc scan is safe. -/
def checkSafe (n : Net) : Bool :=
  n.transitions.all (fun e => e.2.in_arcs.all (fun aid => arcSafe n aid))

/-- Decidable safety of the production loop along one out-arc: the arc
resolves to a destination place each of whose marking keys carries a
weight, so `addMark` cannot raise. -/
def prodSafe (n : Net) (aid : Nat) : Bool :=
  match getArc n aid with
  | none => false
  | some a =>
    match a.node_out with
    | .place s =>
      match dget n.places s with
      | some p => (dkeys p.marking).all (fun k => (dget a.ann k).isSome)
      | none => false
    | .trans _ => false

/-- The two nets hold the same places with the same marking key lists
(values may differ). -/
def placeKeysEq (n n' : Net) : Prop := ∀ s : Nat,
  (dget n'.places s).map (fun p => dkeys p.marking) =
    (dget n.places s).map (fun p => dkeys p.marking)

/-- State evolution along the engine operations: place keys are
preserved, every surviving place keeps its initial marking and its
marking key list. -/
def PEvo (n n' : Net) : Prop :=
  dkeys n'.places = dkeys n.places ∧
  ∀ e' ∈ n'.places, ∃ e ∈ n.places,
    e'.2.initial_marking = e.2.initial_marking ∧ dkeys e'.2.marking = dkeys e.2.marking

/-- The markings and initial markings of a net are well-formed: every
place's marking holds exactly the keys of its initial marking, in order,
and those keys are duplicate-free (always true of nets built through the
Python constructors, where markings are dicts copied from the initial
marking). -/
def MarkWF (n : Net) : Prop :=
  ∀ e ∈ n.places, dkeys e.2.marking = dkeys e.2.initial_marking ∧
    (dkeys e.2.initial_marking).Nodup

/-- The operations the claim quantifies over: firing and ticking. -/
def FiringOp : Op → Prop
  | .fire _ => True
  | .onFire _ => True
  | .tickBy _ => True
  | _ => False

instance (n : Net) : Decidable (MarkWF n) := by
  unfold MarkWF
  infer_instance

instance : (op : Op) → Decidable (FiringOp op) := fun op => by
  cases op <;> simp only [FiringOp] <;> infer_instance

/-- Scenario A after its three `add_node` calls: `P1` holding `{red: 3}`,
`P2` holding `{red: 0}`, `T1` with consumption `0`. -/
def netA0 : Net :=
  stE (add_node (stE (add_node (stE (add_node (mkNet "A")
    (.pl 1 "P1" [("red", 3)]))) (.pl 2 "P2" [("red", 0)]))) (.tr 3 "T1" 0 0))

/-- Scenario A: arcs `P1→T1` and `T1→P2`, both weight `{red: 1}`. -/
def netA : Net :=
  stE (add_arc_ann (stE (add_arc_ann netA0 (.place 1) (.trans 3) 4 [("red", 1)]))
    (.trans 3) (.place 2) 5 [("red", 1)])

def netA1 : Net := stP (fire_transition netA 3)

def netA2 : Net := stP (fire_transition netA1 3)

def netA3 : Net := stP (fire_transition netA2 3)

def netA4 : Net := stP (fire_transition netA3 3)

def tA : TransitionData := (dget netA.transitions 3).getD (mkTransition "" 0 0)

/-- The first place entry of Scenario A's net after one fire, and its
first marking entry (`P1` at color `red`). -/
def eA1 : Nat × PlaceData := netA1.places.getD 0 (0, mkPlace "" [])

def kvA1 : String × Int := eA1.2.marking.getD 0 ("", -1)

def arcA4 : ArcData := (getArc netA 4).getD
  { direction := .PtoT, node_in := .place 0, node_out := .place 0, name := "", ann := [] }

def arcA5 : ArcData := (getArc netA 5).getD
  { direction := .PtoT, node_in := .place 0, node_out := .place 0, name := "", ann := [] }

def pA1 : PlaceData := (dget netA.places 1).getD (mkPlace "" [])

/-- The net refuting C1 as stated: one place holding `{0: 1}` and two
default-weight arcs from it into the same transition. -/
def netC1b : Net :=
  stE (add_node (stE (add_node (mkNet "C1") (.pl 1 "P1" [("0", 1)]))) (.tr 3 "T1" 0 0))

def netC1m : Net := stE (add_arc netC1b (.place 1) (.trans 3) 4)

def netC1 : Net := stE (add_arc netC1m (.place 1) (.trans 3) 5)

/-- The net refuting C2 as stated: the destination place's marking is the
empty dict, so the production loop (which iterates the marking's own
keys) adds nothing. -/
def netC2 : Net :=
  stE (add_arc_ann (stE (add_arc_ann (stE (add_node (stE (add_node (stE (add_node (mkNet "C2")
    (.pl 1 "P1" [("red", 1)]))) (.pl 2 "P2" []))) (.tr 3 "T1" 0 0)))
    (.place 1) (.trans 3) 4 [("red", 1)])) (.trans 3) (.place 2) 5 [("red", 1)])

/-- The net behind the C4 and C6 scenarios: `P1 = {red: 1}`,
`P2 = {red: 0}`, `T1` with consumption `2`, arcs `P1→T1` and `T1→P2` of
weight `{red: 1}`. -/
def netB : Net :=
  stE (add_arc_ann (stE (add_arc_ann (stE (add_node (stE (add_node (stE (add_node (mkNet "B")
    (.pl 1 "P1" [("red", 1)]))) (.pl 2 "P2" [("red", 0)]))) (.tr 3 "T1" 2 0)))
    (.place 1) (.trans 3) 4 [("red", 1)])) (.trans 3) (.place 2) 5 [("red", 1)])

def netB1 : Net := stP (on_fire_transition netB 3)

def t1B : TransitionData := (dget netB1.transitions 3).getD (mkTransition "" 0 0)

/-- The net refuting C6 as stated: as `netB` but with `P2`'s marking the
empty dict. -/
def netC6 : Net :=
  stE (add_arc_ann (stE (add_arc_ann (stE (add_node (stE (add_node (stE (add_node (mkNet "C6")
    (.pl 1 "P1" [("red", 1)]))) (.pl 2 "P2" []))) (.tr 3 "T1" 2 0)))
    (.place 1) (.trans 3) 4 [("red", 1)])) (.trans 3) (.place 2) 5 [("red", 1)])

def netC6a : Net := stP (on_fire_transition netC6 3)

def tC6 : TransitionData := (dget netC6a.transitions 3).getD (mkTransition "" 0 0)

def netC6m : Net :=
  stE (fireOutputs (writeT netC6a 3 { tC6 with time := 0 })
    ({ tC6 with time := 0 } : TransitionData).out_arcs)

def netC6f : Net := stE (update_ready_transition (stopFiring netC6m 3))

/-- Two places with no transition between them: the C9 scenario. -/
def netC9 : Net :=
  stE (add_node (stE (add_node (mkNet "C9") (.pl 1 "P1" [("0", 1)]))) (.pl 2 "P2" [("0", 0)]))

theorem dget_eq_none_iff {κ β : Type} [DecidableEq κ] (d : List (κ × β)) (k : κ) :
    dget d k = none ↔ k ∉ dkeys d := by
  induction d with
  | nil => simp [dget, dkeys]
  | cons e rest ih =>
    simp only [dget, dkeys, List.map_cons, List.mem_cons]
    by_cases h : e.1 = k
    · simp [h]
    · simp [h, ih, dkeys, Ne.symm h]

theorem dget_isSome_iff {κ β : Type} [DecidableEq κ] (d : List (κ × β)) (k : κ) :
    (dget d k).isSome ↔ k ∈ dkeys d := by
  rw [Option.isSome_iff_ne_none]
  constructor
  · intro h
    by_contra hk
    exact h ((dget_eq_none_iff d k).mpr hk)
  · intro h hn
    exact (dget_eq_none_iff d k).mp hn h

theorem mem_of_dget {κ β : Type} [DecidableEq κ] {d : List (κ × β)} {k : κ} {v : β}
    (h : dget d k = some v) : (k, v) ∈ d := by
  induction d with
  | nil => simp [dget] at h
  | cons e rest ih =>
    obtain ⟨a, b⟩ := e
    by_cases he : a = k
    · simp only [dget, if_pos he] at h
      obtain rfl := he
      obtain rfl : b = v := by simpa using h
      exact List.mem_cons_self _ _
    · simp only [dget, if_neg he] at h
      exact List.mem_cons_of_mem _ (ih h)

theorem dget_of_mem_nodup {κ β : Type} [DecidableEq κ] {d : List (κ × β)} {k : κ} {v : β}
    (hnd : (dkeys d).Nodup) (h : (k, v) ∈ d) : dget d k = some v := by
  induction d with
  | nil => simp at h
  | cons e rest ih =>
    simp only [dkeys, List.map_cons, List.nodup_cons] at hnd
    rcases List.mem_cons.mp h with h | h
    · subst h
      simp [dget]
    · have hk : k ∈ dkeys rest := List.mem_map.mpr ⟨(k, v), h, rfl⟩
      have hne : e.1 ≠ k := fun he => hnd.1 (he ▸ hk)
      simp only [dget, if_neg hne]
      exact ih hnd.2 h

theorem dget_map_keep {κ β : Type} [DecidableEq κ] (f : κ × β → κ × β)
    (hf : ∀ e, (f e).1 = e.1) (d : List (κ × β)) (k : κ) :
    dget (d.map f) k = (dget d k).map (fun v => (f (k, v)).2) := by
  induction d with
  | nil => simp [dget]
  | cons e rest ih =>
    simp only [List.map_cons, dget, hf e]
    by_cases he : e.1 = k
    · simp only [if_pos he, Option.map_some']
      have : f e = f (k, e.2) := by rw [← he]
      rw [this]
    · simp [if_neg he, ih]

theorem dget_map_val {κ β γ : Type} [DecidableEq κ] (g : κ → β → γ) (d : List (κ × β)) (k : κ) :
    dget (d.map (fun e => (e.1, g e.1 e.2))) k = (dget d k).map (g k) := by
  induction d with
  | nil => simp [dget]
  | cons e rest ih =>
    simp only [List.map_cons, dget]
    by_cases he : e.1 = k
    · subst he
      simp
    · simp [he, ih]

theorem dkeys_map_keep {κ β : Type} (f : κ × β → κ × β) (hf : ∀ e, (f e).1 = e.1)
    (d : List (κ × β)) : dkeys (d.map f) = dkeys d := by
  induction d with
  | nil => rfl
  | cons e rest ih => simp only [dkeys, List.map_cons, hf e] at ih ⊢; rw [ih]

theorem dkeys_dmodify {κ β : Type} [DecidableEq κ] (d : List (κ × β)) (k : κ) (f : β → β) :
    dkeys (dmodify d k f) = dkeys d := by
  apply dkeys_map_keep
  intro e
  by_cases he : e.1 = k <;> simp [he]

theorem dget_dmodify_self {κ β : Type} [DecidableEq κ] (d : List (κ × β)) (k : κ) (f : β → β) :
    dget (dmodify d k f) k = (dget d k).map f := by
  unfold dmodify
  rw [dget_map_keep (fun e => if e.1 = k then (e.1, f e.2) else e)
    (by intro e; by_cases he : e.1 = k <;> simp [he])]
  cases dget d k <;> simp

theorem dget_dmodify_ne {κ β : Type} [DecidableEq κ] (d : List (κ × β)) (k k' : κ) (f : β → β)
    (h : k' ≠ k) : dget (dmodify d k f) k' = dget d k' := by
  unfold dmodify
  rw [dget_map_keep (fun e => if e.1 = k then (e.1, f e.2) else e)
    (by intro e; by_cases he : e.1 = k <;> simp [he])]
  have : ∀ v : β, (if (k' : κ) = k then ((k' : κ), f v) else (k', v)).2 = v := by
    intro v; simp [h]
  cases dget d k' <;> simp [this]

theorem dmodify_of_not_mem {κ β : Type} [DecidableEq κ] (d : List (κ × β)) (k : κ) (f : β → β)
    (h : k ∉ dkeys d) : dmodify d k f = d := by
  induction d with
  | nil => rfl
  | cons e rest ih =>
    simp only [dkeys, List.map_cons, List.mem_cons, not_or] at h
    have hne : e.1 ≠ k := fun hh => h.1 hh.symm
    simp only [dmodify, List.map_cons, if_neg hne]
    have := ih (by simpa [dkeys] using h.2)
    simp only [dmodify] at this
    rw [this]

theorem dmodify_const_self {κ β : Type} [DecidableEq κ] {d : List (κ × β)} {k : κ} {t : β}
    (hnd : (dkeys d).Nodup) (h : dget d k = some t) : dmodify d k (fun _ => t) = d := by
  induction d with
  | nil => rfl
  | cons e rest ih =>
    simp only [dkeys, List.map_cons, List.nodup_cons] at hnd
    simp only [dget] at h
    simp only [dmodify, List.map_cons]
    by_cases he : e.1 = k
    · obtain rfl : e.2 = t := Option.some_injective _ (by simpa [he] using h)
      rw [if_pos he, ← he]
      have : dmodify rest e.1 (fun _ => e.2) = rest :=
        dmodify_of_not_mem rest e.1 (fun _ => e.2) hnd.1
      simp only [dmodify] at this
      rw [this]
    · rw [if_neg he]
      have := ih hnd.2 (by simpa [he] using h)
      simp only [dmodify] at this
      rw [this]

theorem mem_dmodify {κ β : Type} [DecidableEq κ] {d : List (κ × β)} {k : κ} {f : β → β}
    {e' : κ × β} (h : e' ∈ dmodify d k f) :
    e' ∈ d ∨ ∃ v, (e'.1, v) ∈ d ∧ e'.2 = f v := by
  unfold dmodify at h
  obtain ⟨e, he, heq⟩ := List.mem_map.mp h
  by_cases hk : e.1 = k
  · subst heq
    rw [if_pos hk]
    right
    refine ⟨e.2, ?_, rfl⟩
    simpa using he
  · left
    rwa [← heq, if_neg hk]

theorem dget_append_missing {κ β : Type} [DecidableEq κ] {d : List (κ × β)} {k : κ} (v : β)
    (h : dget d k = none) : dget (d ++ [(k, v)]) k = some v := by
  induction d with
  | nil => simp [dget]
  | cons e rest ih =>
    simp only [dget] at h
    by_cases he : e.1 = k
    · rw [if_pos he] at h
      exact absurd h (by simp)
    · rw [if_neg he] at h
      rw [List.cons_append]
      simp only [dget, if_neg he]
      exact ih h

theorem dget_append_ne {κ β : Type} [DecidableEq κ] {d : List (κ × β)} {k k' : κ} (v : β)
    (h : k' ≠ k) : dget (d ++ [(k, v)]) k' = dget d k' := by
  induction d with
  | nil =>
    simp only [List.nil_append, dget]
    rw [if_neg (Ne.symm h)]
  | cons e rest ih =>
    rw [List.cons_append]
    simp only [dget]
    by_cases he : e.1 = k'
    · rw [if_pos he, if_pos he]
    · rw [if_neg he, if_neg he]
      exact ih

theorem dget_dset_self {κ β : Type} [DecidableEq κ] (d : List (κ × β)) (k : κ) (v : β) :
    dget (dset d k v) k = some v := by
  unfold dset
  by_cases h : (dget d k).isSome
  · rw [if_pos h]
    obtain ⟨w, hw⟩ := Option.isSome_iff_exists.mp h
    rw [dget_map_keep (fun e => if e.1 = k then (k, v) else e)
      (by intro e; by_cases he : e.1 = k <;> simp [he])]
    rw [hw]
    simp
  · rw [if_neg h]
    exact dget_append_missing v (Option.not_isSome_iff_eq_none.mp h)

theorem dget_dset_ne {κ β : Type} [DecidableEq κ] (d : List (κ × β)) (k k' : κ) (v : β)
    (h : k' ≠ k) : dget (dset d k v) k' = dget d k' := by
  unfold dset
  by_cases hs : (dget d k).isSome
  · rw [if_pos hs]
    rw [dget_map_keep (fun e => if e.1 = k then (k, v) else e)
      (by intro e; by_cases he : e.1 = k <;> simp [he])]
    cases dget d k' <;> simp [h]
  · rw [if_neg hs]
    exact dget_append_ne v h

theorem dkeys_dset_of_mem {κ β : Type} [DecidableEq κ] (d : List (κ × β)) (k : κ) (v : β)
    (h : k ∈ dkeys d) : dkeys (dset d k v) = dkeys d := by
  unfold dset
  rw [if_pos ((dget_isSome_iff d k).mpr h)]
  apply dkeys_map_keep
  intro e
  by_cases he : e.1 = k <;> simp [he]

theorem mem_dset {κ β : Type} [DecidableEq κ] {d : List (κ × β)} {k : κ} {v : β}
    {e' : κ × β} (h : e' ∈ dset d k v) : e' ∈ d ∨ e' = (k, v) := by
  unfold dset at h
  by_cases hs : (dget d k).isSome
  · rw [if_pos hs] at h
    obtain ⟨e, he, heq⟩ := List.mem_map.mp h
    by_cases hk : e.1 = k
    · right; rw [← heq, if_pos hk]
    · left; rwa [← heq, if_neg hk]
  · rw [if_neg hs] at h
    rcases List.mem_append.mp h with h | h
    · left; exact h
    · right; simpa using h

theorem sum_map_add {α : Type} (l : List α) (f g : α → Int) :
    (l.map (fun x => f x + g x)).sum = (l.map f).sum + (l.map g).sum := by
  induction l with
  | nil => simp
  | cons a rest ih => simp [ih]; ring

theorem sum_map_ite_zero {κ β : Type} [DecidableEq κ] (pl : List (κ × β)) (s : κ) (w : Int)
    (hs : s ∉ dkeys pl) : (pl.map (fun e => if s = e.1 then w else 0)).sum = 0 := by
  induction pl with
  | nil => simp
  | cons e rest ih =>
    simp only [dkeys, List.map_cons, List.mem_cons, not_or] at hs
    simp only [List.map_cons, List.sum_cons, if_neg hs.1]
    rw [ih (by simpa [dkeys] using hs.2)]
    simp

theorem sum_map_ite_single {κ β : Type} [DecidableEq κ] (pl : List (κ × β)) (s : κ) (w : Int)
    (hnd : (dkeys pl).Nodup) (hs : s ∈ dkeys pl) :
    (pl.map (fun e => if s = e.1 then w else 0)).sum = w := by
  induction pl with
  | nil => simp [dkeys] at hs
  | cons e rest ih =>
    simp only [dkeys, List.map_cons, List.nodup_cons] at hnd
    simp only [List.map_cons, List.sum_cons]
    by_cases he : s = e.1
    · rw [if_pos he, sum_map_ite_zero rest s w (he ▸ hnd.1)]
      simp
    · rw [if_neg he]
      have hs' : s ∈ dkeys rest := by
        rcases List.mem_cons.mp hs with h | h
        · exact absurd h.symm (by simpa [eq_comm] using he)
        · exact h
      rw [ih hnd.2 hs']
      simp

theorem subMark_keys (ann : Marking) : ∀ m : Marking, dkeys (subMark ann m).1 = dkeys m := by
  intro m
  induction m with
  | nil => rfl
  | cons kv rest ih =>
    obtain ⟨k, v⟩ := kv
    simp only [subMark]
    cases dget ann k with
    | none => rfl
    | some w => simpa [dkeys] using ih

theorem addMark_keys (ann : Marking) : ∀ m : Marking, dkeys (addMark ann m).1 = dkeys m := by
  intro m
  induction m with
  | nil => rfl
  | cons kv rest ih =>
    obtain ⟨k, v⟩ := kv
    simp only [addMark]
    cases dget ann k with
    | none => rfl
    | some w => simpa [dkeys] using ih

theorem subMark_true_char (ann : Marking) : ∀ m : Marking, (subMark ann m).2 = true →
    (subMark ann m).1 = m.map (fun kv => (kv.1, kv.2 - (dget ann kv.1).getD 0)) ∧
    ∀ kv ∈ m, (dget ann kv.1).isSome := by
  intro m
  induction m with
  | nil => intro _; exact ⟨rfl, by simp⟩
  | cons kv rest ih =>
    obtain ⟨k, v⟩ := kv
    intro h
    simp only [subMark] at h ⊢
    cases hk : dget ann k with
    | none => rw [hk] at h; simp at h
    | some w =>
      rw [hk] at h
      simp only at h
      obtain ⟨h1, h2⟩ := ih h
      refine ⟨?_, ?_⟩
      · simp only [List.map_cons, hk, Option.getD_some]
        rw [h1]
      · intro kv hkv
        rcases List.mem_cons.mp hkv with h | h
        · rw [h]; simp [hk]
        · exact h2 kv h

theorem addMark_true_char (ann : Marking) : ∀ m : Marking, (addMark ann m).2 = true →
    (addMark ann m).1 = m.map (fun kv => (kv.1, kv.2 + (dget ann kv.1).getD 0)) ∧
    ∀ kv ∈ m, (dget ann kv.1).isSome := by
  intro m
  induction m with
  | nil => intro _; exact ⟨rfl, by simp⟩
  | cons kv rest ih =>
    obtain ⟨k, v⟩ := kv
    intro h
    simp only [addMark] at h ⊢
    cases hk : dget ann k with
    | none => rw [hk] at h; simp at h
    | some w =>
      rw [hk] at h
      simp only at h
      obtain ⟨h1, h2⟩ := ih h
      refine ⟨?_, ?_⟩
      · simp only [List.map_cons, hk, Option.getD_some]
        rw [h1]
      · intro kv hkv
        rcases List.mem_cons.mp hkv with h | h
        · rw [h]; simp [hk]
        · exact h2 kv h

theorem map_dmodify_absorb {κ β γ : Type} [DecidableEq κ] (d : List (κ × β)) (k : κ)
    (f : β → β) (g : κ × β → γ) (hg : ∀ e : κ × β, g (e.1, f e.2) = g e) :
    (dmodify d k f).map g = d.map g := by
  unfold dmodify
  rw [List.map_map]
  apply List.map_congr_left
  intro e _
  by_cases he : e.1 = k
  · simp only [Function.comp, if_pos he, hg e]
  · simp only [Function.comp, if_neg he]

theorem trc_err_inv {n n' : Net} {ti : Nat}
    (h : transition_ready_check n ti = .error n') : n' = n := by
  unfold transition_ready_check at h
  cases hd : dget n.transitions ti with
  | none =>
    simp only [hd] at h
    exact (Except.error.inj h).symm
  | some t =>
    simp only [hd] at h
    cases hr : readyLoop n t.in_arcs with
    | none =>
      simp only [hr] at h
      exact (Except.error.inj h).symm
    | some b =>
      simp only [hr] at h
      exact Except.noConfusion h

theorem trc_ok_inv {n n' : Net} {ti : Nat} {b : Bool}
    (h : transition_ready_check n ti = .ok (b, n')) :
    ∃ t, dget n.transitions ti = some t ∧ readyLoop n t.in_arcs = some b ∧
      n' = setStatus n ti b := by
  unfold transition_ready_check at h
  cases hd : dget n.transitions ti with
  | none =>
    simp only [hd] at h
    exact Except.noConfusion h
  | some t =>
    simp only [hd] at h
    cases hr : readyLoop n t.in_arcs with
    | none =>
      simp only [hr] at h
      exact Except.noConfusion h
    | some b' =>
      simp only [hr, Except.ok.injEq, Prod.mk.injEq] at h
      obtain ⟨hb, hn⟩ := h
      subst hb
      exact ⟨t, rfl, hr, hn.symm⟩

theorem trc_shape (n : Net) (ti : Nat) :
    ∃ ts, stP (transition_ready_check n ti) = { n with transitions := ts } := by
  cases h : transition_ready_check n ti with
  | error n' =>
    obtain rfl := trc_err_inv h
    exact ⟨_, rfl⟩
  | ok r =>
    obtain ⟨b, n'⟩ := r
    obtain ⟨t, _, _, hn⟩ := trc_ok_inv h
    refine ⟨dmodify n.transitions ti
      (fun u => { u with status := if b then "ready" else "unready" }), ?_⟩
    rw [hn]
    rfl

theorem trc_tmap {γ : Type} (n : Net) (ti : Nat) (g : Nat × TransitionData → γ)
    (hg : ∀ (i : Nat) (u : TransitionData) (s : String), g (i, { u with status := s }) = g (i, u)) :
    (stP (transition_ready_check n ti)).transitions.map g = n.transitions.map g := by
  cases h : transition_ready_check n ti with
  | error n' =>
    obtain rfl := trc_err_inv h
    rfl
  | ok r =>
    obtain ⟨b, n'⟩ := r
    obtain ⟨t, _, _, hn⟩ := trc_ok_inv h
    simp only [stP, hn, setStatus]
    exact map_dmodify_absorb n.transitions ti
      (fun u => { u with status := if b then "ready" else "unready" }) g
      (fun e => hg e.1 e.2 (if b then "ready" else "unready"))

theorem urgo_shape (ids : List Nat) : ∀ n : Net,
    ∃ ts, stE (updateReadyGo n ids) = { n with transitions := ts } := by
  induction ids with
  | nil => intro n; exact ⟨_, rfl⟩
  | cons ti rest ih =>
    intro n
    simp only [updateReadyGo]
    cases h : transition_ready_check n ti with
    | error n' =>
      obtain rfl := trc_err_inv h
      exact ⟨_, rfl⟩
    | ok r =>
      obtain ⟨b, n1⟩ := r
      obtain ⟨t, _, _, hn1⟩ := trc_ok_inv h
      obtain ⟨ts, hts⟩ := ih n1
      refine ⟨ts, ?_⟩
      rw [hts, hn1]
      simp only [setStatus]

theorem urgo_tmap {γ : Type} (ids : List Nat) (g : Nat × TransitionData → γ)
    (hg : ∀ (i : Nat) (u : TransitionData) (s : String), g (i, { u with status := s }) = g (i, u)) :
    ∀ n : Net, (stE (updateReadyGo n ids)).transitions.map g = n.transitions.map g := by
  induction ids with
  | nil => intro n; rfl
  | cons ti rest ih =>
    intro n
    simp only [updateReadyGo]
    cases h : transition_ready_check n ti with
    | error n' =>
      obtain rfl := trc_err_inv h
      rfl
    | ok r =>
      obtain ⟨b, n1⟩ := r
      obtain ⟨t, _, _, hn1⟩ := trc_ok_inv h
      rw [ih n1, hn1]
      simp only [setStatus]
      exact map_dmodify_absorb n.transitions ti
        (fun u => { u with status := if b then "ready" else "unready" }) g
        (fun e => hg e.1 e.2 (if b then "ready" else "unready"))

theorem update_ready_shape (n : Net) :
    ∃ ts, stE (update_ready_transition n) = { n with transitions := ts } :=
  urgo_shape (dkeys n.transitions) n

theorem update_ready_tmap {γ : Type} (n : Net) (g : Nat × TransitionData → γ)
    (hg : ∀ (i : Nat) (u : TransitionData) (s : String), g (i, { u with status := s }) = g (i, u)) :
    (stE (update_ready_transition n)).transitions.map g = n.transitions.map g :=
  urgo_tmap (dkeys n.transitions) g hg n

theorem update_ready_tkeys (n : Net) :
    dkeys (stE (update_ready_transition n)).transitions = dkeys n.transitions :=
  update_ready_tmap n Prod.fst (fun _ _ _ => rfl)

theorem arc_ready_congr {n n' : Net} (hp : n'.places = n.places) (a : ArcData) :
    arc_ready n' a = arc_ready n a := by
  unfold arc_ready
  rw [hp]

theorem getArc_congr {n n' : Net} (ha : n'.arcs = n.arcs) (aid : Nat) :
    getArc n' aid = getArc n aid := by
  unfold getArc
  rw [ha]

theorem readyLoop_congr {n n' : Net} (hp : n'.places = n.places) (ha : n'.arcs = n.arcs) :
    ∀ l, readyLoop n' l = readyLoop n l := by
  intro l
  induction l with
  | nil => rfl
  | cons aid rest ih =>
    cases hga : getArc n aid with
    | none => simp only [readyLoop, getArc_congr ha, hga]
    | some a =>
      simp only [readyLoop, getArc_congr ha, hga, arc_ready_congr hp a]
      cases arc_ready n a with
      | none => rfl
      | some b => cases b <;> simp [ih]

theorem urgo_main : ∀ (ids : List Nat) (n n' : Net), (dkeys n.transitions).Nodup →
    updateReadyGo n ids = .ok n' →
    ∀ ti', (ti' ∈ ids → ∃ t', dget n'.transitions ti' = some t' ∧ GoodT n' t') ∧
           (ti' ∉ ids → dget n'.transitions ti' = dget n.transitions ti') := by
  intro ids
  induction ids with
  | nil =>
    intro n n' hnd h ti'
    cases h
    exact ⟨fun hin => absurd hin (List.not_mem_nil ti'), fun _ => rfl⟩
  | cons ti rest ih =>
    intro n n' hnd h ti'
    simp only [updateReadyGo] at h
    cases htr : transition_ready_check n ti with
    | error m =>
      simp only [htr] at h
      exact Except.noConfusion h
    | ok r =>
      obtain ⟨b, n1⟩ := r
      simp only [htr] at h
      obtain ⟨t, hget, hrl, hn1⟩ := trc_ok_inv htr
      have hpl1 : n1.places = n.places := by rw [hn1]; rfl
      have ha1 : n1.arcs = n.arcs := by rw [hn1]; rfl
      have hk1 : dkeys n1.transitions = dkeys n.transitions := by
        rw [hn1]
        simp only [setStatus]
        exact dkeys_dmodify _ _ _
      have hnd1 : (dkeys n1.transitions).Nodup := by rw [hk1]; exact hnd
      have ih' := ih n1 n' hnd1 h
      have hst : stE (updateReadyGo n1 rest) = n' := by rw [h]; rfl
      obtain ⟨ts, hts⟩ := urgo_shape rest n1
      rw [hst] at hts
      have hpl' : n'.places = n.places := by rw [hts, ← hpl1]
      have ha' : n'.arcs = n.arcs := by rw [hts, ← ha1]
      constructor
      · intro hin
        by_cases hr : ti' ∈ rest
        · exact (ih' ti').1 hr
        · have hti : ti' = ti := by
            rcases List.mem_cons.mp hin with hh | hh
            · exact hh
            · exact absurd hh hr
          subst hti
          have hget' : dget n'.transitions ti' = dget n1.transitions ti' := (ih' ti').2 hr
          have hg1 : dget n1.transitions ti' =
              some { t with status := if b then "ready" else "unready" } := by
            rw [hn1]
            simp only [setStatus]
            rw [dget_dmodify_self, hget]
            rfl
          have hrl' : readyLoop n' t.in_arcs = some b := by
            rw [readyLoop_congr hpl' ha']
            exact hrl
          refine ⟨_, hget'.trans hg1, ?_⟩
          cases b with
          | true => exact Or.inl ⟨hrl', rfl⟩
          | false => exact Or.inr ⟨hrl', rfl⟩
      · intro hnin
        have h1 : ti' ∉ rest := fun hh => hnin (List.mem_cons_of_mem _ hh)
        have h2 : ti' ≠ ti := fun hh => hnin (hh ▸ List.mem_cons_self _ _)
        rw [(ih' ti').2 h1, hn1]
        simp only [setStatus]
        exact dget_dmodify_ne _ _ _ _ h2

theorem update_ready_ok_fresh {n n' : Net} (hnd : (dkeys n.transitions).Nodup)
    (h : update_ready_transition n = .ok n') : Fresh n' := by
  intro e he
  have hkeys : dkeys n'.transitions = dkeys n.transitions := by
    have hst : stE (update_ready_transition n) = n' := by rw [h]; rfl
    rw [← hst]
    exact update_ready_tkeys n
  have hmem : e.1 ∈ dkeys n.transitions := by
    rw [← hkeys]
    exact List.mem_map.mpr ⟨e, he, rfl⟩
  obtain ⟨t', hget, hgood⟩ := (urgo_main (dkeys n.transitions) n n' hnd h e.1).1 hmem
  have hnd' : (dkeys n'.transitions).Nodup := by rw [hkeys]; exact hnd
  have hself : dget n'.transitions e.1 = some e.2 :=
    dget_of_mem_nodup hnd' (by simpa using he)
  rw [hself] at hget
  obtain rfl : t' = e.2 := (Option.some_injective _ hget).symm
  exact hgood

theorem getArc_some_iff {n : Net} {aid : Nat} {a : ArcData} :
    getArc n aid = some a ↔ dget n.arcs aid = some (some a) := by
  unfold getArc
  cases h : dget n.arcs aid with
  | none => simp
  | some oa => cases oa <;> simp

theorem entry_dget_of_nodup {κ β : Type} [DecidableEq κ] {d : List (κ × β)} {e : κ × β}
    (hnd : (dkeys d).Nodup) (he : e ∈ d) : dget d e.1 = some e.2 :=
  dget_of_mem_nodup hnd (by simpa using he)

theorem consumeArc_ok_inv {n n' : Net} {aid : Nat} (h : consumeArc n aid = .ok n') :
    ∃ a pid p, getArc n aid = some a ∧ a.node_in = .place pid ∧ dget n.places pid = some p ∧
      (subMark a.ann p.marking).2 = true ∧ n' = setMarking n pid (subMark a.ann p.marking).1 := by
  unfold consumeArc at h
  cases hga : getArc n aid with
  | none =>
    simp only [hga] at h
    exact Except.noConfusion h
  | some a =>
    simp only [hga] at h
    cases hni : a.node_in with
    | place pid =>
      simp only [hni] at h
      cases hp : dget n.places pid with
      | none =>
        simp only [hp] at h
        exact Except.noConfusion h
      | some p =>
        simp only [hp] at h
        by_cases hs : (subMark a.ann p.marking).2 = true
        · rw [if_pos hs] at h
          exact ⟨a, pid, p, rfl, hni, hp, hs, (Except.ok.inj h).symm⟩
        · rw [if_neg hs] at h
          exact Except.noConfusion h
    | trans i =>
      simp only [hni] at h
      exact Except.noConfusion h

theorem produceArc_ok_inv {n n' : Net} {aid : Nat} (h : produceArc n aid = .ok n') :
    ∃ a pid p, getArc n aid = some a ∧ a.node_out = .place pid ∧ dget n.places pid = some p ∧
      (addMark a.ann p.marking).2 = true ∧ n' = setMarking n pid (addMark a.ann p.marking).1 := by
  unfold produceArc at h
  cases hga : getArc n aid with
  | none =>
    simp only [hga] at h
    exact Except.noConfusion h
  | some a =>
    simp only [hga] at h
    cases hni : a.node_out with
    | place pid =>
      simp only [hni] at h
      cases hp : dget n.places pid with
      | none =>
        simp only [hp] at h
        exact Except.noConfusion h
      | some p =>
        simp only [hp] at h
        by_cases hs : (addMark a.ann p.marking).2 = true
        · rw [if_pos hs] at h
          exact ⟨a, pid, p, rfl, hni, hp, hs, (Except.ok.inj h).symm⟩
        · rw [if_neg hs] at h
          exact Except.noConfusion h
    | trans i =>
      simp only [hni] at h
      exact Except.noConfusion h

theorem consumeArc_shape (n : Net) (aid : Nat) :
    ∃ pl, stE (consumeArc n aid) = { n with places := pl } := by
  unfold consumeArc
  cases hga : getArc n aid with
  | none =>
    simp only
    exact ⟨_, rfl⟩
  | some a =>
    simp only
    cases hni : a.node_in with
    | place pid =>
      cases hp : dget n.places pid with
      | none =>
        simp only [hp]
        exact ⟨_, rfl⟩
      | some p =>
        simp only [hp]
        by_cases hs : (subMark a.ann p.marking).2 = true
        · rw [if_pos hs]
          exact ⟨_, rfl⟩
        · rw [if_neg hs]
          exact ⟨_, rfl⟩
    | trans i =>
      exact ⟨_, rfl⟩

theorem produceArc_shape (n : Net) (aid : Nat) :
    ∃ pl, stE (produceArc n aid) = { n with places := pl } := by
  unfold produceArc
  cases hga : getArc n aid with
  | none =>
    simp only
    exact ⟨_, rfl⟩
  | some a =>
    simp only
    cases hni : a.node_out with
    | place pid =>
      cases hp : dget n.places pid with
      | none =>
        simp only [hp]
        exact ⟨_, rfl⟩
      | some p =>
        simp only [hp]
        by_cases hs : (addMark a.ann p.marking).2 = true
        · rw [if_pos hs]
          exact ⟨_, rfl⟩
        · rw [if_neg hs]
          exact ⟨_, rfl⟩
    | trans i =>
      exact ⟨_, rfl⟩

theorem fireInputs_shape : ∀ (l : List Nat) (n : Net),
    ∃ pl, stE (fireInputs n l) = { n with places := pl } := by
  intro l
  induction l with
  | nil => intro n; exact ⟨_, rfl⟩
  | cons aid rest ih =>
    intro n
    simp only [fireInputs]
    cases h : consumeArc n aid with
    | error m =>
      obtain ⟨pl, hpl⟩ := consumeArc_shape n aid
      rw [h] at hpl
      exact ⟨pl, hpl⟩
    | ok n1 =>
      obtain ⟨pl1, hpl1⟩ := consumeArc_shape n aid
      rw [h] at hpl1
      simp only [stE] at hpl1
      obtain ⟨pl2, hpl2⟩ := ih n1
      refine ⟨pl2, ?_⟩
      rw [hpl2, hpl1]

theorem fireOutputs_shape : ∀ (l : List Nat) (n : Net),
    ∃ pl, stE (fireOutputs n l) = { n with places := pl } := by
  intro l
  induction l with
  | nil => intro n; exact ⟨_, rfl⟩
  | cons aid rest ih =>
    intro n
    simp only [fireOutputs]
    cases h : produceArc n aid with
    | error m =>
      obtain ⟨pl, hpl⟩ := produceArc_shape n aid
      rw [h] at hpl
      exact ⟨pl, hpl⟩
    | ok n1 =>
      obtain ⟨pl1, hpl1⟩ := produceArc_shape n aid
      rw [h] at hpl1
      simp only [stE] at hpl1
      obtain ⟨pl2, hpl2⟩ := ih n1
      refine ⟨pl2, ?_⟩
      rw [hpl2, hpl1]

theorem map_pentry_congr_id (pl : List (Nat × PlaceData)) (f : Nat × PlaceData → Marking)
    (hf : ∀ e ∈ pl, f e = e.2.marking) :
    pl.map (fun e => (e.1, { e.2 with marking := f e })) = pl := by
  induction pl with
  | nil => rfl
  | cons e rest ih =>
    simp only [List.map_cons, hf e (List.mem_cons_self _ _)]
    rw [ih (fun x hx => hf x (List.mem_cons_of_mem _ hx))]

theorem map_entry_congr_id {κ β : Type} (m : List (κ × β)) (f : κ × β → β)
    (hf : ∀ kv ∈ m, f kv = kv.2) : m.map (fun kv => (kv.1, f kv)) = m := by
  induction m with
  | nil => rfl
  | cons kv rest ih =>
    simp only [List.map_cons, hf kv (List.mem_cons_self _ _)]
    rw [ih (fun x hx => hf x (List.mem_cons_of_mem _ hx))]

theorem fireInputs_char : ∀ (l : List Nat) (n n' : Net), (dkeys n.places).Nodup →
    fireInputs n l = .ok n' →
    n'.places = n.places.map (fun e => (e.1, { e.2 with
      marking := e.2.marking.map (fun kv => (kv.1, kv.2 - inSum n.arcs l e.1 kv.1)) })) := by
  intro l
  induction l with
  | nil =>
    intro n n' hnd h
    simp only [fireInputs] at h
    cases h
    refine (map_pentry_congr_id n.places _ ?_).symm
    intro e _
    refine map_entry_congr_id e.2.marking _ ?_
    intro kv _
    simp [inSum]
  | cons aid rest ih =>
    intro n n' hnd h
    simp only [fireInputs] at h
    cases hc : consumeArc n aid with
    | error m =>
      simp only [hc] at h
      exact Except.noConfusion h
    | ok n1 =>
      simp only [hc] at h
      obtain ⟨a, s, p, hga, hni, hp, hsub, hn1⟩ := consumeArc_ok_inv hc
      have harcs1 : n1.arcs = n.arcs := by rw [hn1]; rfl
      have hkeys1 : dkeys n1.places = dkeys n.places := by
        rw [hn1]
        simp only [setMarking]
        exact dkeys_dmodify _ _ _
      have hnd1 : (dkeys n1.places).Nodup := by rw [hkeys1]; exact hnd
      have hchar := ih n1 n' hnd1 h
      rw [harcs1] at hchar
      have hpl1 : n1.places =
          dmodify n.places s (fun q => { q with marking := (subMark a.ann p.marking).1 }) := by
        rw [hn1]
        rfl
      rw [hchar, hpl1]
      unfold dmodify
      rw [List.map_map]
      apply List.map_congr_left
      intro e he
      obtain ⟨ei, ed⟩ := e
      by_cases hes : ei = s
      · subst hes
        have hep : ed = p := by
          have hd := entry_dget_of_nodup hnd he
          rw [hp] at hd
          exact (Option.some_injective _ hd).symm
        have hm1 : (subMark a.ann p.marking).1 =
            p.marking.map (fun kv => (kv.1, kv.2 - (dget a.ann kv.1).getD 0)) :=
          (subMark_true_char a.ann p.marking hsub).1
        have hM : ((subMark a.ann p.marking).1).map
              (fun kv => (kv.1, kv.2 - inSum n.arcs rest ei kv.1)) =
            ed.marking.map (fun kv => (kv.1, kv.2 - inSum n.arcs (aid :: rest) ei kv.1)) := by
          rw [hm1, List.map_map, hep]
          apply List.map_congr_left
          intro kv _
          simp only [Function.comp]
          have hsum : inSum n.arcs (aid :: rest) ei kv.1 =
              inCon n.arcs aid ei kv.1 + inSum n.arcs rest ei kv.1 := by
            simp [inSum]
          have hw : inCon n.arcs aid ei kv.1 = (dget a.ann kv.1).getD 0 := by
            simp [inCon, getArc_some_iff.mp hga, hni]
          rw [hsum, hw, sub_sub]
        simp only [Function.comp, if_true]
        rw [hM]
      · have hM : ed.marking.map (fun kv => (kv.1, kv.2 - inSum n.arcs rest ei kv.1)) =
            ed.marking.map (fun kv => (kv.1, kv.2 - inSum n.arcs (aid :: rest) ei kv.1)) := by
          apply List.map_congr_left
          intro kv _
          have hcon : inCon n.arcs aid ei kv.1 = 0 := by
            simp only [inCon, getArc_some_iff.mp hga, hni]
            rw [if_neg (fun hh : s = ei => hes hh.symm)]
          have hsum : inSum n.arcs (aid :: rest) ei kv.1 = inSum n.arcs rest ei kv.1 := by
            simp [inSum, hcon]
          rw [hsum]
        simp only [Function.comp, if_neg hes]
        rw [hM]

theorem fireOutputs_char : ∀ (l : List Nat) (n n' : Net), (dkeys n.places).Nodup →
    fireOutputs n l = .ok n' →
    n'.places = n.places.map (fun e => (e.1, { e.2 with
      marking := e.2.marking.map (fun kv => (kv.1, kv.2 + outSum n.arcs l e.1 kv.1)) })) := by
  intro l
  induction l with
  | nil =>
    intro n n' hnd h
    simp only [fireOutputs] at h
    cases h
    refine (map_pentry_congr_id n.places _ ?_).symm
    intro e _
    refine map_entry_congr_id e.2.marking _ ?_
    intro kv _
    simp [outSum]
  | cons aid rest ih =>
    intro n n' hnd h
    simp only [fireOutputs] at h
    cases hc : produceArc n aid with
    | error m =>
      simp only [hc] at h
      exact Except.noConfusion h
    | ok n1 =>
      simp only [hc] at h
      obtain ⟨a, s, p, hga, hni, hp, hsub, hn1⟩ := produceArc_ok_inv hc
      have harcs1 : n1.arcs = n.arcs := by rw [hn1]; rfl
      have hkeys1 : dkeys n1.places = dkeys n.places := by
        rw [hn1]
        simp only [setMarking]
        exact dkeys_dmodify _ _ _
      have hnd1 : (dkeys n1.places).Nodup := by rw [hkeys1]; exact hnd
      have hchar := ih n1 n' hnd1 h
      rw [harcs1] at hchar
      have hpl1 : n1.places =
          dmodify n.places s (fun q => { q with marking := (addMark a.ann p.marking).1 }) := by
        rw [hn1]
        rfl
      rw [hchar, hpl1]
      unfold dmodify
      rw [List.map_map]
      apply List.map_congr_left
      intro e he
      obtain ⟨ei, ed⟩ := e
      by_cases hes : ei = s
      · subst hes
        have hep : ed = p := by
          have hd := entry_dget_of_nodup hnd he
          rw [hp] at hd
          exact (Option.some_injective _ hd).symm
        have hm1 : (addMark a.ann p.marking).1 =
            p.marking.map (fun kv => (kv.1, kv.2 + (dget a.ann kv.1).getD 0)) :=
          (addMark_true_char a.ann p.marking hsub).1
        have hM : ((addMark a.ann p.marking).1).map
              (fun kv => (kv.1, kv.2 + outSum n.arcs rest ei kv.1)) =
            ed.marking.map (fun kv => (kv.1, kv.2 + outSum n.arcs (aid :: rest) ei kv.1)) := by
          rw [hm1, List.map_map, hep]
          apply List.map_congr_left
          intro kv _
          simp only [Function.comp]
          have hsum : outSum n.arcs (aid :: rest) ei kv.1 =
              outCon n.arcs aid ei kv.1 + outSum n.arcs rest ei kv.1 := by
            simp [outSum]
          have hw : outCon n.arcs aid ei kv.1 = (dget a.ann kv.1).getD 0 := by
            simp [outCon, getArc_some_iff.mp hga, hni]
          rw [hsum, hw, add_assoc]
        simp only [Function.comp, if_true]
        rw [hM]
      · have hM : ed.marking.map (fun kv => (kv.1, kv.2 + outSum n.arcs rest ei kv.1)) =
            ed.marking.map (fun kv => (kv.1, kv.2 + outSum n.arcs (aid :: rest) ei kv.1)) := by
          apply List.map_congr_left
          intro kv _
          have hcon : outCon n.arcs aid ei kv.1 = 0 := by
            simp only [outCon, getArc_some_iff.mp hga, hni]
            rw [if_neg (fun hh : s = ei => hes hh.symm)]
          have hsum : outSum n.arcs (aid :: rest) ei kv.1 = outSum n.arcs rest ei kv.1 := by
            simp [outSum, hcon]
          rw [hsum]
        simp only [Function.comp, if_neg hes]
        rw [hM]

theorem fire_false_inv {n n' : Net} {ti : Nat} (h : fire_transition n ti = .ok (false, n')) :
    n' = n ∨ ∃ b, n' = setStatus n ti b := by
  unfold fire_transition at h
  cases hd : dget n.transitions ti with
  | none =>
    simp only [hd, Except.ok.injEq, Prod.mk.injEq] at h
    exact Or.inl h.2.symm
  | some t =>
    simp only [hd] at h
    cases htr : transition_ready_check n ti with
    | error m =>
      simp only [htr] at h
      exact Except.noConfusion h
    | ok r =>
      obtain ⟨b, n1⟩ := r
      simp only [htr] at h
      cases b with
      | false =>
        simp only [Except.ok.injEq, Prod.mk.injEq, true_and] at h
        obtain ⟨t', _, _, hn1⟩ := trc_ok_inv htr
        exact Or.inr ⟨false, h.symm.trans hn1⟩
      | true =>
        exfalso
        cases hd1 : dget n1.transitions ti with
        | none =>
          simp only [hd1] at h
          exact Except.noConfusion h
        | some t1 =>
          simp only [hd1] at h
          cases hfi : fireInputs n1 t1.in_arcs with
          | error m2 =>
            simp only [hfi] at h
            exact Except.noConfusion h
          | ok n2 =>
            simp only [hfi] at h
            cases hfo : fireOutputs n2 t1.out_arcs with
            | error m3 =>
              simp only [hfo] at h
              exact Except.noConfusion h
            | ok n3 =>
              simp only [hfo] at h
              cases hur : update_ready_transition n3 with
              | error m4 =>
                simp only [hur] at h
                exact Except.noConfusion h
              | ok n4 =>
                simp only [hur, Except.ok.injEq, Prod.mk.injEq] at h
                exact Bool.noConfusion h.1

theorem on_fire_false_inv {n n' : Net} {ti : Nat}
    (h : on_fire_transition n ti = .ok (false, n')) :
    n' = n ∨ ∃ b, n' = setStatus n ti b := by
  unfold on_fire_transition at h
  cases hd : dget n.transitions ti with
  | none =>
    simp only [hd, Except.ok.injEq, Prod.mk.injEq] at h
    exact Or.inl h.2.symm
  | some t =>
    simp only [hd] at h
    cases htr : transition_ready_check n ti with
    | error m =>
      simp only [htr] at h
      exact Except.noConfusion h
    | ok r =>
      obtain ⟨b, n1⟩ := r
      simp only [htr] at h
      cases b with
      | false =>
        simp only [Except.ok.injEq, Prod.mk.injEq, true_and] at h
        obtain ⟨t', _, _, hn1⟩ := trc_ok_inv htr
        exact Or.inr ⟨false, h.symm.trans hn1⟩
      | true =>
        obtain ⟨t', _, _, hn1⟩ := trc_ok_inv htr
        cases hd1 : dget n1.transitions ti with
        | none =>
          simp only [hd1] at h
          exact Except.noConfusion h
        | some t1 =>
          simp only [hd1] at h
          by_cases hw : t1.work_status = "firing"
          · rw [if_pos hw] at h
            simp only [Except.ok.injEq, Prod.mk.injEq, true_and] at h
            exact Or.inr ⟨true, h.symm.trans hn1⟩
          · rw [if_neg hw] at h
            exfalso
            cases hfi : fireInputs n1 t1.in_arcs with
            | error m2 =>
              simp only [hfi] at h
              exact Except.noConfusion h
            | ok n2 =>
              simp only [hfi, Except.ok.injEq, Prod.mk.injEq] at h
              exact Bool.noConfusion h.1

theorem fire_true_inv {n n' : Net} {ti : Nat} (h : fire_transition n ti = .ok (true, n')) :
    ∃ t t1 n2 n3, dget n.transitions ti = some t ∧ readyLoop n t.in_arcs = some true ∧
      dget (setStatus n ti true).transitions ti = some t1 ∧
      t1.in_arcs = t.in_arcs ∧ t1.out_arcs = t.out_arcs ∧
      fireInputs (setStatus n ti true) t1.in_arcs = .ok n2 ∧
      fireOutputs n2 t1.out_arcs = .ok n3 ∧
      update_ready_transition n3 = .ok n' := by
  unfold fire_transition at h
  cases hd : dget n.transitions ti with
  | none =>
    simp only [hd, Except.ok.injEq, Prod.mk.injEq] at h
    exact Bool.noConfusion h.1
  | some t =>
    simp only [hd] at h
    cases htr : transition_ready_check n ti with
    | error m =>
      simp only [htr] at h
      exact Except.noConfusion h
    | ok r =>
      obtain ⟨b, n1⟩ := r
      simp only [htr] at h
      cases b with
      | false =>
        simp only [Except.ok.injEq, Prod.mk.injEq] at h
        exact Bool.noConfusion h.1
      | true =>
        obtain ⟨t', hd', hrl, hn1⟩ := trc_ok_inv htr
        have htt : t' = t := by rw [hd] at hd'; exact (Option.some_injective _ hd').symm
        rw [htt] at hrl
        subst hn1
        cases hd1 : dget (setStatus n ti true).transitions ti with
        | none =>
          simp only [hd1] at h
          exact Except.noConfusion h
        | some t1 =>
          simp only [hd1] at h
          have h2 : dget (setStatus n ti true).transitions ti =
              some { t with status := "ready" } := by
            show dget (dmodify n.transitions ti
              (fun u => { u with status := if true then "ready" else "unready" })) ti = _
            rw [dget_dmodify_self, hd]
            rfl
          have ht1 : t1 = { t with status := "ready" } :=
            Option.some_injective _ (hd1.symm.trans h2)
          cases hfi : fireInputs (setStatus n ti true) t1.in_arcs with
          | error m2 =>
            simp only [hfi] at h
            exact Except.noConfusion h
          | ok n2 =>
            simp only [hfi] at h
            cases hfo : fireOutputs n2 t1.out_arcs with
            | error m3 =>
              simp only [hfo] at h
              exact Except.noConfusion h
            | ok n3 =>
              simp only [hfo] at h
              cases hur : update_ready_transition n3 with
              | error m4 =>
                simp only [hur] at h
                exact Except.noConfusion h
              | ok n4 =>
                simp only [hur, Except.ok.injEq, Prod.mk.injEq, true_and] at h
                subst h
                exact ⟨t, t1, n2, n3, rfl, hrl, rfl, by rw [ht1], by rw [ht1], hfi, hfo, hur⟩

theorem on_fire_true_inv {n n' : Net} {ti : Nat}
    (h : on_fire_transition n ti = .ok (true, n')) :
    ∃ t t1 n2, dget n.transitions ti = some t ∧ readyLoop n t.in_arcs = some true ∧
      dget (setStatus n ti true).transitions ti = some t1 ∧
      t1.in_arcs = t.in_arcs ∧ t1.out_arcs = t.out_arcs ∧ t1.work_status ≠ "firing" ∧
      fireInputs (setStatus n ti true) t1.in_arcs = .ok n2 ∧ n' = startFiring n2 ti := by
  unfold on_fire_transition at h
  cases hd : dget n.transitions ti with
  | none =>
    simp only [hd, Except.ok.injEq, Prod.mk.injEq] at h
    exact Bool.noConfusion h.1
  | some t =>
    simp only [hd] at h
    cases htr : transition_ready_check n ti with
    | error m =>
      simp only [htr] at h
      exact Except.noConfusion h
    | ok r =>
      obtain ⟨b, n1⟩ := r
      simp only [htr] at h
      cases b with
      | false =>
        simp only [Except.ok.injEq, Prod.mk.injEq] at h
        exact Bool.noConfusion h.1
      | true =>
        obtain ⟨t', hd', hrl, hn1⟩ := trc_ok_inv htr
        have htt : t' = t := by rw [hd] at hd'; exact (Option.some_injective _ hd').symm
        rw [htt] at hrl
        subst hn1
        cases hd1 : dget (setStatus n ti true).transitions ti with
        | none =>
          simp only [hd1] at h
          exact Except.noConfusion h
        | some t1 =>
          simp only [hd1] at h
          have h2 : dget (setStatus n ti true).transitions ti =
              some { t with status := "ready" } := by
            show dget (dmodify n.transitions ti
              (fun u => { u with status := if true then "ready" else "unready" })) ti = _
            rw [dget_dmodify_self, hd]
            rfl
          have ht1 : t1 = { t with status := "ready" } :=
            Option.some_injective _ (hd1.symm.trans h2)
          by_cases hw : t1.work_status = "firing"
          · rw [if_pos hw] at h
            simp only [Except.ok.injEq, Prod.mk.injEq] at h
            exact Bool.noConfusion h.1
          · rw [if_neg hw] at h
            cases hfi : fireInputs (setStatus n ti true) t1.in_arcs with
            | error m2 =>
              simp only [hfi] at h
              exact Except.noConfusion h
            | ok n2 =>
              simp only [hfi, Except.ok.injEq, Prod.mk.injEq, true_and] at h
              exact ⟨t, t1, n2, rfl, hrl, rfl, by rw [ht1], by rw [ht1], hw, hfi, h.symm⟩

theorem fire_true_places {n n' : Net} {ti : Nat} {t : TransitionData}
    (hnd : (dkeys n.places).Nodup) (hd : dget n.transitions ti = some t)
    (h : fire_transition n ti = .ok (true, n')) :
    n'.places = n.places.map (fun e => (e.1, { e.2 with
      marking := e.2.marking.map (fun kv => (kv.1,
        kv.2 - inSum n.arcs t.in_arcs e.1 kv.1 + outSum n.arcs t.out_arcs e.1 kv.1)) })) := by
  obtain ⟨t0, t1, n2, n3, hd0, hrl, hd1, hin, hout, hfi, hfo, hur⟩ := fire_true_inv h
  obtain rfl : t0 = t := Option.some_injective _ (hd0.symm.trans hd)
  have hnd1 : (dkeys (setStatus n ti true).places).Nodup := hnd
  have hchar2 := fireInputs_char t1.in_arcs (setStatus n ti true) n2 hnd1 hfi
  rw [hin] at hchar2
  have hpl1 : (setStatus n ti true).places = n.places := rfl
  have harc1 : (setStatus n ti true).arcs = n.arcs := rfl
  rw [hpl1, harc1] at hchar2
  obtain ⟨pl2, hpl2⟩ := fireInputs_shape t1.in_arcs (setStatus n ti true)
  rw [hfi] at hpl2
  simp only [stE] at hpl2
  have harc2 : n2.arcs = n.arcs := by rw [hpl2]; rfl
  have hkeys2 : dkeys n2.places = dkeys n.places := by
    rw [hchar2, dkeys, List.map_map]
    rfl
  have hnd2 : (dkeys n2.places).Nodup := by rw [hkeys2]; exact hnd
  have hchar3 := fireOutputs_char t1.out_arcs n2 n3 hnd2 hfo
  rw [hout, harc2] at hchar3
  obtain ⟨ts4, hts4⟩ := update_ready_shape n3
  rw [hur] at hts4
  simp only [stE] at hts4
  have hpl4 : n'.places = n3.places := by rw [hts4]
  rw [hpl4, hchar3, hchar2, List.map_map]
  apply List.map_congr_left
  intro e he
  simp only [Function.comp, List.map_map]
  rfl

theorem on_fire_state {n n' : Net} {ti : Nat} (h : on_fire_transition n ti = .ok (true, n')) :
    ∃ u, dget n'.transitions ti = some u ∧ u.work_status = "firing" ∧
      u.time = u.consumption := by
  obtain ⟨t, t1, n2, hd, hrl, hd1, hin, hout, hw, hfi, hn'⟩ := on_fire_true_inv h
  obtain ⟨pl2, hpl2⟩ := fireInputs_shape t1.in_arcs (setStatus n ti true)
  rw [hfi] at hpl2
  simp only [stE] at hpl2
  have hd2 : dget n2.transitions ti = some t1 := by rw [hpl2]; exact hd1
  subst hn'
  refine ⟨{ t1 with work_status := "firing", time := t1.consumption }, ?_, rfl, rfl⟩
  show dget (startFiring n2 ti).transitions ti = _
  simp only [startFiring]
  rw [dget_dmodify_self, hd2]
  rfl

theorem sum_map_zero_of {α : Type} (l : List α) (f : α → Int) (hf : ∀ x ∈ l, f x = 0) :
    (l.map f).sum = 0 := by
  induction l with
  | nil => rfl
  | cons a rest ih =>
    simp only [List.map_cons, List.sum_cons, hf a (List.mem_cons_self _ _)]
    rw [ih (fun x hx => hf x (List.mem_cons_of_mem _ hx))]
    simp

theorem sum_map_sub_add {α : Type} (l : List α) (f g h : α → Int) :
    (l.map (fun x => f x - g x + h x)).sum = (l.map f).sum - (l.map g).sum + (l.map h).sum := by
  induction l with
  | nil => simp
  | cons a rest ih =>
    simp only [List.map_cons, List.sum_cons, ih]
    ring

theorem sum_inSum_swap (arcs : List (Nat × Option ArcData)) :
    ∀ (l : List Nat) (pl : List (Nat × PlaceData)) (k : String), (dkeys pl).Nodup →
    (∀ aid ∈ l, ∃ a s, dget arcs aid = some (some a) ∧ a.node_in = .place s ∧ s ∈ dkeys pl) →
    (pl.map (fun e => inSum arcs l e.1 k)).sum = annTotal arcs l k := by
  intro l
  induction l with
  | nil =>
    intro pl k _ _
    have hz : annTotal arcs [] k = 0 := rfl
    rw [hz]
    exact sum_map_zero_of pl _ (fun e _ => by simp [inSum])
  | cons aid rest ih =>
    intro pl k hnd hres
    obtain ⟨a, s, hget, hni, hs⟩ := hres aid (List.mem_cons_self _ _)
    have hsplit : ∀ e : Nat × PlaceData, inSum arcs (aid :: rest) e.1 k =
        inCon arcs aid e.1 k + inSum arcs rest e.1 k := by
      intro e
      simp [inSum]
    have hcon : ∀ e : Nat × PlaceData, inCon arcs aid e.1 k =
        if s = e.1 then (dget a.ann k).getD 0 else 0 := by
      intro e
      simp [inCon, hget, hni]
    rw [List.map_congr_left (fun e _ => hsplit e), sum_map_add]
    rw [List.map_congr_left (fun e (_ : e ∈ pl) => hcon e)]
    rw [sum_map_ite_single pl s _ hnd hs]
    rw [ih pl k hnd (fun x hx => hres x (List.mem_cons_of_mem _ hx))]
    have hhead : annTotal arcs (aid :: rest) k =
        (dget a.ann k).getD 0 + annTotal arcs rest k := by
      simp [annTotal, hget]
    rw [hhead]

theorem sum_outSum_swap (arcs : List (Nat × Option ArcData)) :
    ∀ (l : List Nat) (pl : List (Nat × PlaceData)) (k : String), (dkeys pl).Nodup →
    (∀ aid ∈ l, ∃ a s, dget arcs aid = some (some a) ∧ a.node_out = .place s ∧ s ∈ dkeys pl) →
    (pl.map (fun e => outSum arcs l e.1 k)).sum = annTotal arcs l k := by
  intro l
  induction l with
  | nil =>
    intro pl k _ _
    have hz : annTotal arcs [] k = 0 := rfl
    rw [hz]
    exact sum_map_zero_of pl _ (fun e _ => by simp [outSum])
  | cons aid rest ih =>
    intro pl k hnd hres
    obtain ⟨a, s, hget, hni, hs⟩ := hres aid (List.mem_cons_self _ _)
    have hsplit : ∀ e : Nat × PlaceData, outSum arcs (aid :: rest) e.1 k =
        outCon arcs aid e.1 k + outSum arcs rest e.1 k := by
      intro e
      simp [outSum]
    have hcon : ∀ e : Nat × PlaceData, outCon arcs aid e.1 k =
        if s = e.1 then (dget a.ann k).getD 0 else 0 := by
      intro e
      simp [outCon, hget, hni]
    rw [List.map_congr_left (fun e _ => hsplit e), sum_map_add]
    rw [List.map_congr_left (fun e (_ : e ∈ pl) => hcon e)]
    rw [sum_map_ite_single pl s _ hnd hs]
    rw [ih pl k hnd (fun x hx => hres x (List.mem_cons_of_mem _ hx))]
    have hhead : annTotal arcs (aid :: rest) k =
        (dget a.ann k).getD 0 + annTotal arcs rest k := by
      simp [annTotal, hget]
    rw [hhead]

theorem inSum_zero_of_absent (arcs : List (Nat × Option ArcData)) (l : List Nat)
    (pl : List (Nat × PlaceData)) (e : Nat × PlaceData) (k : String)
    (hnd : (dkeys pl).Nodup) (he : e ∈ pl) (habs : dget e.2.marking k = none)
    (hres : ∀ aid ∈ l, ∃ a s p, dget arcs aid = some (some a) ∧ a.node_in = .place s ∧
      dget pl s = some p ∧ k ∈ dkeys p.marking) :
    inSum arcs l e.1 k = 0 := by
  rw [inSum]
  apply sum_map_zero_of
  intro aid hx
  obtain ⟨a, s, p, hget, hni, hp, hk⟩ := hres aid hx
  by_cases hse : s = e.1
  · exfalso
    rw [hse] at hp
    have h2 := entry_dget_of_nodup hnd he
    rw [h2] at hp
    obtain rfl : p = e.2 := (Option.some_injective _ hp).symm
    have : (dget e.2.marking k).isSome := (dget_isSome_iff _ _).mpr hk
    rw [habs] at this
    exact Bool.noConfusion this
  · simp [inCon, hget, hni, hse]

theorem outSum_zero_of_absent (arcs : List (Nat × Option ArcData)) (l : List Nat)
    (pl : List (Nat × PlaceData)) (e : Nat × PlaceData) (k : String)
    (hnd : (dkeys pl).Nodup) (he : e ∈ pl) (habs : dget e.2.marking k = none)
    (hres : ∀ aid ∈ l, ∃ a s p, dget arcs aid = some (some a) ∧ a.node_out = .place s ∧
      dget pl s = some p ∧ k ∈ dkeys p.marking) :
    outSum arcs l e.1 k = 0 := by
  rw [outSum]
  apply sum_map_zero_of
  intro aid hx
  obtain ⟨a, s, p, hget, hni, hp, hk⟩ := hres aid hx
  by_cases hse : s = e.1
  · exfalso
    rw [hse] at hp
    have h2 := entry_dget_of_nodup hnd he
    rw [h2] at hp
    obtain rfl : p = e.2 := (Option.some_injective _ hp).symm
    have : (dget e.2.marking k).isSome := (dget_isSome_iff _ _).mpr hk
    rw [habs] at this
    exact Bool.noConfusion this
  · simp [outCon, hget, hni, hse]

/-- C2 (amended): across a successful `fire_transition`, for a color `k`
present in the marking of every involved source and destination place,
the net-wide total of color `k` changes by exactly the dictated amounts:
it drops by the summed in-arc weights at `k` and grows by the summed
out-arc weights at `k`.  (As stated the claim is false: a color absent
from a destination marking is not added — see the counterexample.) -/
theorem claim2_token_conservation (n n' : Net) (ti : Nat) (t : TransitionData) (k : String)
    (hndp : (dkeys n.places).Nodup)
    (hd : dget n.transitions ti = some t)
    (hfire : fire_transition n ti = .ok (true, n'))
    (hin : ∀ aid ∈ t.in_arcs, ∃ a s p, dget n.arcs aid = some (some a) ∧
      a.node_in = .place s ∧ dget n.places s = some p ∧ k ∈ dkeys p.marking)
    (hout : ∀ aid ∈ t.out_arcs, ∃ a s p, dget n.arcs aid = some (some a) ∧
      a.node_out = .place s ∧ dget n.places s = some p ∧ k ∈ dkeys p.marking) :
    colorTotal n' k =
      colorTotal n k - annTotal n.arcs t.in_arcs k + annTotal n.arcs t.out_arcs k := by
  have hpl := fire_true_places hndp hd hfire
  rw [colorTotal, hpl, List.map_map]
  have hpt : ∀ e ∈ n.places,
      ((fun e : Nat × PlaceData => (dget e.2.marking k).getD 0) ∘ (fun e => (e.1, { e.2 with
        marking := e.2.marking.map (fun kv => (kv.1,
          kv.2 - inSum n.arcs t.in_arcs e.1 kv.1 + outSum n.arcs t.out_arcs e.1 kv.1)) }))) e =
      (dget e.2.marking k).getD 0 - inSum n.arcs t.in_arcs e.1 k +
        outSum n.arcs t.out_arcs e.1 k := by
    intro e he
    simp only [Function.comp]
    rw [dget_map_val (fun k0 v => v - inSum n.arcs t.in_arcs e.1 k0 + outSum n.arcs t.out_arcs e.1 k0) e.2.marking k]
    cases habs : dget e.2.marking k with
    | some v => simp
    | none =>
      simp only [Option.map_none, Option.getD_none]
      rw [inSum_zero_of_absent n.arcs t.in_arcs n.places e k hndp he habs hin]
      rw [outSum_zero_of_absent n.arcs t.out_arcs n.places e k hndp he habs hout]
      simp
  rw [List.map_congr_left hpt, sum_map_sub_add]
  have hresin : ∀ aid ∈ t.in_arcs, ∃ a s, dget n.arcs aid = some (some a) ∧
      a.node_in = .place s ∧ s ∈ dkeys n.places := by
    intro aid hx
    obtain ⟨a, s, p, h1, h2, h3, _⟩ := hin aid hx
    exact ⟨a, s, h1, h2, (dget_isSome_iff _ _).mp (by rw [h3]; rfl)⟩
  have hresout : ∀ aid ∈ t.out_arcs, ∃ a s, dget n.arcs aid = some (some a) ∧
      a.node_out = .place s ∧ s ∈ dkeys n.places := by
    intro aid hx
    obtain ⟨a, s, p, h1, h2, h3, _⟩ := hout aid hx
    exact ⟨a, s, h1, h2, (dget_isSome_iff _ _).mp (by rw [h3]; rfl)⟩
  rw [sum_inSum_swap n.arcs t.in_arcs n.places k hndp hresin]
  rw [sum_outSum_swap n.arcs t.out_arcs n.places k hndp hresout]
  rfl

/-- C1 (amended): the readiness guard checks only that some color of each
input arc suffices, so a successful fire can drive counts negative (see
the counterexample); non-negativity is preserved by a successful
`fire_transition` exactly when every held count survives the transition's
summed per-key deltas, as hypothesised here. -/
theorem claim1_nonnegativity (n n' : Net) (ti : Nat) (t : TransitionData)
    (hnd : (dkeys n.places).Nodup) (hd : dget n.transitions ti = some t)
    (hfire : fire_transition n ti = .ok (true, n'))
    (hdom : ∀ e ∈ n.places, ∀ kv ∈ e.2.marking,
      0 ≤ kv.2 - inSum n.arcs t.in_arcs e.1 kv.1 + outSum n.arcs t.out_arcs e.1 kv.1) :
    ∀ e ∈ n'.places, ∀ kv ∈ e.2.marking, 0 ≤ kv.2 := by
  intro e he kv hkv
  rw [fire_true_places hnd hd hfire] at he
  obtain ⟨e0, he0, rfl⟩ := List.mem_map.mp he
  obtain ⟨kv0, hkv0, rfl⟩ := List.mem_map.mp hkv
  exact hdom e0 he0 kv0 hkv0

theorem anyReady_true_iff (m : Marking) : ∀ ann : Marking,
    (∀ k ∈ dkeys ann, k ∈ dkeys m) →
    (anyReady m ann = some true ↔
      ∃ kw ∈ ann, ∃ v, dget m kw.1 = some v ∧ v - kw.2 ≥ 0) := by
  intro ann
  induction ann with
  | nil =>
    intro _
    simp [anyReady]
  | cons kw rest ih =>
    intro hcov
    obtain ⟨k, w⟩ := kw
    have hk : k ∈ dkeys m := hcov k (by simp [dkeys])
    obtain ⟨v, hv⟩ := Option.isSome_iff_exists.mp ((dget_isSome_iff m k).mpr hk)
    simp only [anyReady, hv]
    by_cases hge : v - w ≥ 0
    · rw [if_pos hge]
      constructor
      · intro _
        exact ⟨(k, w), List.mem_cons_self _ _, v, hv, hge⟩
      · intro _
        rfl
    · rw [if_neg hge]
      rw [ih (fun k0 hk0 => hcov k0 (by simp [dkeys]; exact Or.inr (by simpa [dkeys] using hk0)))]
      constructor
      · intro ⟨kw0, hkw0, v0, hv0, hge0⟩
        exact ⟨kw0, List.mem_cons_of_mem _ hkw0, v0, hv0, hge0⟩
      · intro ⟨kw0, hkw0, v0, hv0, hge0⟩
        rcases List.mem_cons.mp hkw0 with heq | hmem
        · exfalso
          subst heq
          rw [hv] at hv0
          obtain rfl : v = v0 := Option.some_injective _ hv0
          exact hge hge0
        · exact ⟨kw0, hmem, v0, hv0, hge0⟩

/-- C3: for a `PtoT` arc whose weight keys all occur in the source
place's marking, `arc_ready` answers true precisely when some single
weight entry is covered by the marking (the any-one-color test), and a
`TtoP` arc is never ready. -/
theorem claim3_arc_ready (n : Net) (a : ArcData) :
    (∀ pid p, a.direction = .PtoT → a.node_in = .place pid → dget n.places pid = some p →
      (∀ k ∈ dkeys a.ann, k ∈ dkeys p.marking) →
      (arc_ready n a = some true ↔
        ∃ kw ∈ a.ann, ∃ v, dget p.marking kw.1 = some v ∧ v - kw.2 ≥ 0)) ∧
    (a.direction = .TtoP → arc_ready n a = some false) := by
  constructor
  · intro pid p hdir hni hp hcov
    unfold arc_ready
    simp only [hdir, hni, hp]
    exact anyReady_true_iff p.marking a.ann hcov
  · intro hdir
    unfold arc_ready
    simp only [hdir]

/-- C7: whenever `fire_transition` or `on_fire_transition` returns
`False`, every place's marking and every transition's `work_status` and
remaining-time counter are exactly as before the call (the only state a
failing call may touch is the checked transition's cached `status`). -/
theorem claim7_failure_atomic (n n' : Net) (ti : Nat)
    (h : fire_transition n ti = .ok (false, n') ∨ on_fire_transition n ti = .ok (false, n')) :
    n'.places = n.places ∧
    n'.transitions.map (fun e => (e.1, e.2.work_status, e.2.time)) =
      n.transitions.map (fun e => (e.1, e.2.work_status, e.2.time)) := by
  have hcase : n' = n ∨ ∃ b, n' = setStatus n ti b := by
    rcases h with h | h
    · exact fire_false_inv h
    · exact on_fire_false_inv h
  rcases hcase with rfl | ⟨b, rfl⟩
  · exact ⟨rfl, rfl⟩
  · refine ⟨rfl, ?_⟩
    exact map_dmodify_absorb n.transitions ti
      (fun u => { u with status := if b then "ready" else "unready" })
      (fun e => (e.1, e.2.work_status, e.2.time)) (fun e => rfl)

theorem map_dmodify_nodup {κ β γ : Type} [DecidableEq κ] {d : List (κ × β)} {k : κ} {t : β}
    (hnd : (dkeys d).Nodup) (hget : dget d k = some t) (f : β → β) (g : κ × β → γ)
    (hg : g (k, f t) = g (k, t)) : (dmodify d k f).map g = d.map g := by
  unfold dmodify
  rw [List.map_map]
  apply List.map_congr_left
  intro x hx
  by_cases hxk : x.1 = k
  · have hxv : x.2 = t := by
      have h2 := entry_dget_of_nodup hnd hx
      rw [hxk, hget] at h2
      exact (Option.some_injective _ h2).symm
    simp only [Function.comp, if_pos hxk]
    calc g (x.1, f x.2) = g (k, f t) := by rw [hxk, hxv]
      _ = g (k, t) := hg
      _ = g (x.1, x.2) := by rw [hxk, hxv]
  · simp only [Function.comp, if_neg hxk]

theorem OnlyTime.rfl' (n : Net) : OnlyTime n n := ⟨rfl, rfl, rfl⟩

theorem OnlyTime.trans' {n1 n2 n3 : Net} (h1 : OnlyTime n1 n2) (h2 : OnlyTime n2 n3) :
    OnlyTime n1 n3 :=
  ⟨h2.1.trans h1.1, h2.2.1.trans h1.2.1, h2.2.2.trans h1.2.2⟩

theorem Fresh_onlyTime {n n' : Net} (ho : OnlyTime n n') (hf : Fresh n) : Fresh n' := by
  intro e he
  have hmem : (e.1, { e.2 with time := 0 }) ∈
      n.transitions.map (fun x => (x.1, { x.2 with time := 0 })) := by
    rw [← ho.2.2]
    exact List.mem_map.mpr ⟨e, he, rfl⟩
  obtain ⟨e0, he0, heq⟩ := List.mem_map.mp hmem
  simp only [Prod.mk.injEq, TransitionData.mk.injEq] at heq
  have hgood := hf e0 he0
  have hrw : readyLoop n' e.2.in_arcs = readyLoop n e0.2.in_arcs := by
    rw [readyLoop_congr ho.1 ho.2.1]
    rw [heq.2.2.2.2.1]
  unfold GoodT at hgood ⊢
  rw [hrw, ← heq.2.2.2.2.2.2.1]
  exact hgood

theorem tickGo_fresh (dt : Rat) : ∀ (ids : List Nat) (n : Net) (acc res : List String)
    (n' : Net), (dkeys n.transitions).Nodup → tickGo dt n ids acc = .ok (res, n') →
    (res = acc ∧ OnlyTime n n') ∨ Fresh n' := by
  intro ids
  induction ids with
  | nil =>
    intro n acc res n' _ h
    simp only [tickGo] at h
    simp only [Except.ok.injEq, Prod.mk.injEq] at h
    exact Or.inl ⟨h.1.symm, h.2 ▸ OnlyTime.rfl' n⟩
  | cons ti rest ih =>
    intro n acc res n' hnd h
    simp only [tickGo] at h
    cases hd : dget n.transitions ti with
    | none =>
      simp only [hd] at h
      exact ih n acc res n' hnd h
    | some t =>
      simp only [hd] at h
      by_cases hc : (tickT t dt).1 = true
      · rw [if_pos hc] at h
        cases hfo : fireOutputs (writeT n ti (tickT t dt).2) (tickT t dt).2.out_arcs with
        | error m2 =>
          simp only [hfo] at h
          exact Except.noConfusion h
        | ok n2 =>
          simp only [hfo] at h
          cases hur : update_ready_transition (stopFiring n2 ti) with
          | error m4 =>
            simp only [hur] at h
            exact Except.noConfusion h
          | ok n4 =>
            simp only [hur] at h
            have hnd2 : (dkeys n2.transitions).Nodup := by
              obtain ⟨pl, hpl⟩ := fireOutputs_shape (tickT t dt).2.out_arcs (writeT n ti (tickT t dt).2)
              rw [hfo] at hpl
              simp only [stE] at hpl
              rw [hpl]
              show (dkeys (writeT n ti (tickT t dt).2).transitions).Nodup
              simp only [writeT]
              rw [dkeys_dmodify]
              exact hnd
            have hnd3 : (dkeys (stopFiring n2 ti).transitions).Nodup := by
              simp only [stopFiring]
              rw [dkeys_dmodify]
              exact hnd2
            have hfr4 : Fresh n4 := update_ready_ok_fresh hnd3 hur
            have hnd4 : (dkeys n4.transitions).Nodup := by
              have hst : stE (update_ready_transition (stopFiring n2 ti)) = n4 := by
                rw [hur]
                rfl
              rw [← hst, update_ready_tkeys]
              exact hnd3
            rcases ih n4 (acc ++ [t.name]) res n' hnd4 h with ⟨_, ho⟩ | hfr
            · exact Or.inr (Fresh_onlyTime ho hfr4)
            · exact Or.inr hfr
      · rw [if_neg hc] at h
        have hndw : (dkeys (writeT n ti (tickT t dt).2).transitions).Nodup := by
          simp only [writeT]
          rw [dkeys_dmodify]
          exact hnd
        have how : OnlyTime n (writeT n ti (tickT t dt).2) := by
          refine ⟨rfl, rfl, ?_⟩
          show (dmodify n.transitions ti (fun _ => (tickT t dt).2)).map _ = _
          apply map_dmodify_nodup hnd hd
          unfold tickT
          by_cases hw : t.work_status = "firing"
          · rw [if_pos hw]
            by_cases hz : t.time - dt ≤ 0
            · rw [if_pos hz]
            · rw [if_neg hz]
          · rw [if_neg hw]
        rcases ih (writeT n ti (tickT t dt).2) acc res n' hndw h with ⟨hres, ho⟩ | hfr
        · exact Or.inl ⟨hres, OnlyTime.trans' how ho⟩
        · exact Or.inr hfr

theorem nodup_dkeys_dset {κ β : Type} [DecidableEq κ] (d : List (κ × β)) (k : κ) (v : β)
    (hnd : (dkeys d).Nodup) : (dkeys (dset d k v)).Nodup := by
  by_cases hk : k ∈ dkeys d
  · rw [dkeys_dset_of_mem d k v hk]
    exact hnd
  · have hns : ¬(dget d k).isSome := by
      rw [dget_isSome_iff]
      exact hk
    unfold dset
    rw [if_neg hns]
    have hkeys : dkeys (d ++ [(k, v)]) = dkeys d ++ [k] := by
      simp [dkeys]
    rw [hkeys]
    refine List.Nodup.append hnd (List.nodup_singleton k) ?_
    intro a ha hb
    rw [List.mem_singleton] at hb
    exact hk (hb ▸ ha)

theorem addOut_tkeys (n : Net) (r : NodeRef) (tgt aid : Nat) :
    dkeys (addOut n r tgt aid).transitions = dkeys n.transitions := by
  cases r with
  | place i => rfl
  | trans i =>
    simp only [addOut]
    exact dkeys_dmodify _ _ _

theorem addIn_tkeys (n : Net) (r : NodeRef) (src aid : Nat) :
    dkeys (addIn n r src aid).transitions = dkeys n.transitions := by
  cases r with
  | place i => rfl
  | trans i =>
    simp only [addIn]
    exact dkeys_dmodify _ _ _

/-- C4 (amended): cached statuses are fresh after `add_node`, after a
completed `add_arc`, after a successful `fire_transition`, and after any
completed `tick` pass that finished at least one transition; a successful
`on_fire_transition` performs no recompute and can leave a stale status
(see the counterexample). -/
theorem claim4_status_fresh (n : Net) (hnd : (dkeys n.transitions).Nodup) :
    (∀ x n', add_node n x = .ok n' → Fresh n') ∧
    (∀ r1 r2 aid n', add_arc n r1 r2 aid = .ok n' → Fresh n') ∧
    (∀ ti n', fire_transition n ti = .ok (true, n') → Fresh n') ∧
    (∀ dt res n', tick n dt = .ok (res, n') → res ≠ [] → Fresh n') := by
  refine ⟨?_, ?_, ?_, ?_⟩
  · intro x n' h
    cases x with
    | pl i nm init =>
      simp only [add_node] at h
      refine update_ready_ok_fresh ?_ h
      exact hnd
    | tr i nm time prio =>
      simp only [add_node] at h
      refine update_ready_ok_fresh ?_ h
      exact nodup_dkeys_dset n.transitions i (mkTransition nm time prio) hnd
  · intro r1 r2 aid n' h
    unfold add_arc add_arc_ann at h
    cases r1 with
    | place i =>
      cases r2 with
      | place j =>
        simp only [mkArcData] at h
        exact Except.noConfusion h
      | trans j =>
        simp only [mkArcData] at h
        refine update_ready_ok_fresh ?_ h
        rw [addIn_tkeys, addOut_tkeys]
        exact hnd
    | trans i =>
      cases r2 with
      | place j =>
        simp only [mkArcData] at h
        refine update_ready_ok_fresh ?_ h
        rw [addIn_tkeys, addOut_tkeys]
        exact hnd
      | trans j =>
        simp only [mkArcData] at h
        exact Except.noConfusion h
  · intro ti n' h
    obtain ⟨t, t1, n2, n3, hd0, hrl, hd1, hin, hout, hfi, hfo, hur⟩ := fire_true_inv h
    obtain ⟨pl2, hpl2⟩ := fireInputs_shape t1.in_arcs (setStatus n ti true)
    rw [hfi] at hpl2
    simp only [stE] at hpl2
    obtain ⟨pl3, hpl3⟩ := fireOutputs_shape t1.out_arcs n2
    rw [hfo] at hpl3
    simp only [stE] at hpl3
    have hk3 : dkeys n3.transitions = dkeys n.transitions := by
      rw [hpl3]
      show dkeys n2.transitions = dkeys n.transitions
      rw [hpl2]
      show dkeys (setStatus n ti true).transitions = dkeys n.transitions
      simp only [setStatus]
      exact dkeys_dmodify _ _ _
    exact update_ready_ok_fresh (hk3 ▸ hnd) hur
  · intro dt res n' h hres
    rcases tickGo_fresh dt (dkeys n.transitions) n [] res n' hnd h with ⟨hr, _⟩ | hfr
    · exact absurd hr hres
    · exact hfr

theorem anyReady_isSome (m : Marking) : ∀ ann : Marking,
    (∀ k ∈ dkeys ann, k ∈ dkeys m) → (anyReady m ann).isSome := by
  intro ann
  induction ann with
  | nil => intro _; rfl
  | cons kw rest ih =>
    intro hcov
    obtain ⟨k, w⟩ := kw
    have hk : k ∈ dkeys m := hcov k (by simp [dkeys])
    obtain ⟨v, hv⟩ := Option.isSome_iff_exists.mp ((dget_isSome_iff m k).mpr hk)
    simp only [anyReady, hv]
    by_cases hge : v - w ≥ 0
    · rw [if_pos hge]
      rfl
    · rw [if_neg hge]
      exact ih (fun k0 hk0 => hcov k0 (by simp [dkeys]; exact Or.inr (by simpa [dkeys] using hk0)))

theorem readyLoop_isSome_of_safe (n : Net) : ∀ l : List Nat,
    (∀ aid ∈ l, arcSafe n aid = true) → (readyLoop n l).isSome := by
  intro l
  induction l with
  | nil => intro _; rfl
  | cons aid rest ih =>
    intro hsafe
    have hs := hsafe aid (List.mem_cons_self _ _)
    unfold arcSafe at hs
    cases hga : getArc n aid with
    | none =>
      simp only [hga] at hs
      exact Bool.noConfusion hs
    | some a =>
      simp only [hga] at hs
      simp only [readyLoop, hga]
      cases hdir : a.direction with
      | TtoP =>
        have hfalse : arc_ready n a = some false := by
          unfold arc_ready
          simp only [hdir]
        rw [hfalse]
        rfl
      | PtoT =>
        simp only [hdir] at hs
        cases hni : a.node_in with
        | trans i =>
          simp only [hni] at hs
          exact Bool.noConfusion hs
        | place s =>
          simp only [hni] at hs
          cases hp : dget n.places s with
          | none =>
            simp only [hp] at hs
            exact Bool.noConfusion hs
          | some p =>
            simp only [hp] at hs
            have hcov : ∀ k ∈ dkeys a.ann, k ∈ dkeys p.marking := by
              intro k hk
              have := List.all_eq_true.mp hs k hk
              exact of_decide_eq_true this
            have hready : (arc_ready n a).isSome := by
              unfold arc_ready
              simp only [hdir, hni, hp]
              exact anyReady_isSome p.marking a.ann hcov
            obtain ⟨b, hb⟩ := Option.isSome_iff_exists.mp hready
            rw [hb]
            cases b with
            | true => exact ih (fun x hx => hsafe x (List.mem_cons_of_mem _ hx))
            | false => rfl

theorem prodSafe_spec {n : Net} {aid : Nat} (h : prodSafe n aid = true) :
    ∃ a s p, getArc n aid = some a ∧ a.node_out = .place s ∧ dget n.places s = some p ∧
      ∀ k ∈ dkeys p.marking, (dget a.ann k).isSome := by
  unfold prodSafe at h
  cases hga : getArc n aid with
  | none =>
    simp only [hga] at h
    exact Bool.noConfusion h
  | some a =>
    simp only [hga] at h
    cases hni : a.node_out with
    | trans i =>
      simp only [hni] at h
      exact Bool.noConfusion h
    | place s =>
      simp only [hni] at h
      cases hp : dget n.places s with
      | none =>
        simp only [hp] at h
        exact Bool.noConfusion h
      | some p =>
        simp only [hp] at h
        exact ⟨a, s, p, rfl, hni, hp, fun k hk => List.all_eq_true.mp h k hk⟩

theorem addMark_true_of_cover (ann : Marking) : ∀ m : Marking,
    (∀ kv ∈ m, (dget ann kv.1).isSome) → (addMark ann m).2 = true := by
  intro m
  induction m with
  | nil => intro _; rfl
  | cons kv rest ih =>
    intro hcov
    obtain ⟨k, v⟩ := kv
    obtain ⟨w, hw⟩ := Option.isSome_iff_exists.mp (hcov (k, v) (List.mem_cons_self _ _))
    simp only [addMark, hw]
    exact ih (fun x hx => hcov x (List.mem_cons_of_mem _ hx))

theorem prodSafe_mono {m m' : Net} (harc : m'.arcs = m.arcs) (hpk : placeKeysEq m m')
    {aid : Nat} (h : prodSafe m aid = true) : prodSafe m' aid = true := by
  unfold prodSafe at h ⊢
  rw [getArc_congr harc]
  cases hga : getArc m aid with
  | none =>
    simp only [hga] at h
    exact Bool.noConfusion h
  | some a =>
    simp only [hga] at h ⊢
    cases hno : a.node_out with
    | trans i =>
      simp only [hno] at h
      exact Bool.noConfusion h
    | place s =>
      simp only [hno] at h ⊢
      cases hp : dget m.places s with
      | none =>
        simp only [hp] at h
        exact Bool.noConfusion h
      | some p =>
        simp only [hp] at h
        have hthis := hpk s
        rw [hp] at hthis
        cases hp' : dget m'.places s with
        | none =>
          rw [hp'] at hthis
          simp at hthis
        | some p' =>
          rw [hp'] at hthis
          simp only [Option.map_some'] at hthis
          have heq : dkeys p'.marking = dkeys p.marking := Option.some_injective _ hthis
          simp only [hp']
          rw [heq]
          exact h

theorem arcSafe_mono {m m' : Net} (harc : m'.arcs = m.arcs) (hpk : placeKeysEq m m')
    {aid : Nat} (h : arcSafe m aid = true) : arcSafe m' aid = true := by
  unfold arcSafe at h ⊢
  rw [getArc_congr harc]
  cases hga : getArc m aid with
  | none =>
    simp only [hga] at h
    exact Bool.noConfusion h
  | some a =>
    simp only [hga] at h ⊢
    cases hdir : a.direction with
    | TtoP =>
      simp only [hdir]
    | PtoT =>
      simp only [hdir] at h ⊢
      cases hni : a.node_in with
      | trans i =>
        simp only [hni] at h
        exact Bool.noConfusion h
      | place s =>
        simp only [hni] at h ⊢
        cases hp : dget m.places s with
        | none =>
          simp only [hp] at h
          exact Bool.noConfusion h
        | some p =>
          simp only [hp] at h
          have hthis := hpk s
          rw [hp] at hthis
          cases hp' : dget m'.places s with
          | none =>
            rw [hp'] at hthis
            simp at hthis
          | some p' =>
            rw [hp'] at hthis
            simp only [Option.map_some'] at hthis
            have heq : dkeys p'.marking = dkeys p.marking := Option.some_injective _ hthis
            simp only [hp']
            rw [heq]
            exact h

theorem checkSafe_mono {n n' : Net} (harc : n'.arcs = n.arcs)
    (htr : n'.transitions.map (fun e => (e.1, e.2.in_arcs)) =
      n.transitions.map (fun e => (e.1, e.2.in_arcs)))
    (hpk : placeKeysEq n n') (h : checkSafe n = true) : checkSafe n' = true := by
  unfold checkSafe at h ⊢
  rw [List.all_eq_true] at h ⊢
  intro e' he'
  have hmem : (e'.1, e'.2.in_arcs) ∈ n.transitions.map (fun e => (e.1, e.2.in_arcs)) := by
    rw [← htr]
    exact List.mem_map.mpr ⟨e', he', rfl⟩
  obtain ⟨e, he, heq⟩ := List.mem_map.mp hmem
  rw [List.all_eq_true]
  intro aid haid
  have heq2 : e.2.in_arcs = e'.2.in_arcs := congrArg Prod.snd heq
  have haid0 : aid ∈ e.2.in_arcs := by
    rw [heq2]
    exact haid
  have hsafe := List.all_eq_true.mp (h e he) aid haid0
  exact arcSafe_mono harc hpk hsafe

theorem urgo_ok_of_safe : ∀ (ids : List Nat) (n : Net), checkSafe n = true →
    (∀ ti ∈ ids, ti ∈ dkeys n.transitions) → ∃ n', updateReadyGo n ids = .ok n' := by
  intro ids
  induction ids with
  | nil =>
    intro n _ _
    exact ⟨n, rfl⟩
  | cons ti rest ih =>
    intro n hcs hmem
    obtain ⟨t, ht⟩ := Option.isSome_iff_exists.mp
      ((dget_isSome_iff _ _).mpr (hmem ti (List.mem_cons_self _ _)))
    have hsafe : ∀ aid ∈ t.in_arcs, arcSafe n aid = true := by
      have hall := List.all_eq_true.mp hcs (ti, t) (mem_of_dget ht)
      exact fun aid haid => List.all_eq_true.mp hall aid haid
    obtain ⟨b, hb⟩ := Option.isSome_iff_exists.mp (readyLoop_isSome_of_safe n t.in_arcs hsafe)
    have htrc : transition_ready_check n ti = .ok (b, setStatus n ti b) := by
      unfold transition_ready_check
      simp only [ht, hb]
    have hkeys : dkeys (setStatus n ti b).transitions = dkeys n.transitions := by
      simp only [setStatus]
      exact dkeys_dmodify _ _ _
    have hcs1 : checkSafe (setStatus n ti b) = true := by
      refine @checkSafe_mono n (setStatus n ti b) rfl ?_ (fun s => rfl) hcs
      show List.map (fun e => (e.1, e.2.in_arcs)) (dmodify n.transitions ti (fun u => { u with status := if b then "ready" else "unready" })) = List.map (fun e => (e.1, e.2.in_arcs)) n.transitions
      exact map_dmodify_absorb n.transitions ti _ _ (fun e => rfl)
    obtain ⟨n', hn'⟩ := ih (setStatus n ti b) hcs1 (by
      intro ti' hti'
      rw [hkeys]
      exact hmem ti' (List.mem_cons_of_mem _ hti'))
    refine ⟨n', ?_⟩
    simp only [updateReadyGo, htrc]
    exact hn'

theorem update_ready_ok_of_safe {n : Net} (h : checkSafe n = true) :
    ∃ n', update_ready_transition n = .ok n' :=
  urgo_ok_of_safe (dkeys n.transitions) n h (fun _ hti => hti)

theorem fireOutputs_ok_of_safe : ∀ (l : List Nat) (m : Net),
    (∀ aid ∈ l, prodSafe m aid = true) →
    ∃ m', fireOutputs m l = .ok m' ∧ placeKeysEq m m' ∧ m'.arcs = m.arcs ∧
      m'.transitions = m.transitions := by
  intro l
  induction l with
  | nil =>
    intro m _
    exact ⟨m, rfl, fun s => rfl, rfl, rfl⟩
  | cons aid rest ih =>
    intro m hsafe
    obtain ⟨a, s, p, hga, hno, hp, hcov⟩ := prodSafe_spec (hsafe aid (List.mem_cons_self _ _))
    have hadd : (addMark a.ann p.marking).2 = true := by
      apply addMark_true_of_cover
      intro kv hkv
      exact hcov kv.1 (List.mem_map.mpr ⟨kv, hkv, rfl⟩)
    have hpa : produceArc m aid = .ok (setMarking m s (addMark a.ann p.marking).1) := by
      unfold produceArc
      simp only [hga, hno, hp]
      rw [if_pos hadd]
    have hpk1 : placeKeysEq m (setMarking m s (addMark a.ann p.marking).1) := by
      intro s0
      show (dget (dmodify m.places s (fun q => { q with marking := (addMark a.ann p.marking).1 })) s0).map (fun q => dkeys q.marking) = (dget m.places s0).map (fun q => dkeys q.marking)
      by_cases hss : s0 = s
      · subst hss
        rw [dget_dmodify_self, hp]
        simp only [Option.map_some']
        rw [addMark_keys]
      · rw [dget_dmodify_ne _ _ _ _ hss]
    have harc1 : (setMarking m s (addMark a.ann p.marking).1).arcs = m.arcs := rfl
    have hsafe1 : ∀ aid' ∈ rest, prodSafe (setMarking m s (addMark a.ann p.marking).1) aid' = true := by
      intro aid' h'
      exact prodSafe_mono harc1 hpk1 (hsafe aid' (List.mem_cons_of_mem _ h'))
    obtain ⟨m', hfo, hpk, harc, htr⟩ := ih (setMarking m s (addMark a.ann p.marking).1) hsafe1
    refine ⟨m', ?_, ?_, ?_, ?_⟩
    · simp only [fireOutputs, hpa]
      exact hfo
    · intro s0
      rw [hpk s0, hpk1 s0]
    · exact harc.trans harc1
    · exact htr.trans rfl

theorem tickGo_append (dt : Rat) : ∀ (l1 l2 : List Nat) (n : Net) (acc : List String),
    tickGo dt n (l1 ++ l2) acc =
      match tickGo dt n l1 acc with
      | .ok r => tickGo dt r.2 l2 r.1
      | .error m => .error m := by
  intro l1
  induction l1 with
  | nil =>
    intro l2 n acc
    rfl
  | cons ti rest ih =>
    intro l2 n acc
    rw [List.cons_append]
    cases hd : dget n.transitions ti with
    | none =>
      simp only [tickGo, hd]
      exact ih l2 n acc
    | some t =>
      by_cases hc : (tickT t dt).1 = true
      · simp only [tickGo, hd, if_pos hc]
        cases hfo : fireOutputs (writeT n ti (tickT t dt).2) (tickT t dt).2.out_arcs with
        | error m2 => rfl
        | ok n2 =>
          dsimp only
          cases hur : update_ready_transition (stopFiring n2 ti) with
          | error m4 => rfl
          | ok n4 =>
            dsimp only
            exact ih l2 n4 (acc ++ [t.name])
      · simp only [tickGo, hd, if_neg hc]
        exact ih l2 (writeT n ti (tickT t dt).2) acc

theorem tickGo_inert (dt : Rat) : ∀ (ids : List Nat) (n : Net) (acc : List String),
    (dkeys n.transitions).Nodup →
    (∀ ti ∈ ids, ∀ t, dget n.transitions ti = some t → t.work_status ≠ "firing") →
    tickGo dt n ids acc = .ok (acc, n) := by
  intro ids
  induction ids with
  | nil =>
    intro n acc _ _
    rfl
  | cons ti rest ih =>
    intro n acc hnd hinert
    simp only [tickGo]
    cases hd : dget n.transitions ti with
    | none => exact ih n acc hnd (fun tj hj => hinert tj (List.mem_cons_of_mem _ hj))
    | some t =>
      have hw : t.work_status ≠ "firing" := hinert ti (List.mem_cons_self _ _) t hd
      have htt : tickT t dt = (false, t) := by
        unfold tickT
        rw [if_neg hw]
      simp only [htt]
      have hwr : writeT n ti t = n := by
        unfold writeT
        rw [dmodify_const_self hnd hd]
      rw [hwr]
      exact ih n acc hnd (fun tj hj => hinert tj (List.mem_cons_of_mem _ hj))

theorem dget_proj_of_map_eq {κ β γ : Type} [DecidableEq κ] (f : β → γ) :
    ∀ (l l' : List (κ × β)),
      l'.map (fun e => (e.1, f e.2)) = l.map (fun e => (e.1, f e.2)) →
      ∀ k, (dget l' k).map f = (dget l k).map f := by
  intro l
  induction l with
  | nil =>
    intro l' h k
    simp only [List.map_nil, List.map_eq_nil_iff] at h
    rw [h]
  | cons e t ih =>
    intro l' h k
    cases l' with
    | nil => exact absurd h (by simp)
    | cons e2 t2 =>
      simp only [List.map_cons, List.cons.injEq, Prod.mk.injEq] at h
      obtain ⟨⟨h1, h2⟩, h3⟩ := h
      simp only [dget]
      by_cases hk : e2.1 = k
      · rw [if_pos hk, if_pos (h1 ▸ hk)]
        simp only [Option.map_some']
        rw [h2]
      · rw [if_neg hk, if_neg (fun hh => hk (h1.trans hh))]
        exact ih t2 h3 k

theorem writeT_tkeys (n : Net) (ti : Nat) (t : TransitionData) :
    dkeys (writeT n ti t).transitions = dkeys n.transitions := by
  show dkeys (dmodify n.transitions ti (fun _ => t)) = dkeys n.transitions
  exact dkeys_dmodify _ _ _

theorem writeT_dget_self (n : Net) (ti : Nat) (t : TransitionData) :
    dget (writeT n ti t).transitions ti = (dget n.transitions ti).map (fun _ => t) := by
  show dget (dmodify n.transitions ti (fun _ => t)) ti = _
  exact dget_dmodify_self _ _ _

theorem writeT_dget_ne (n : Net) (ti tj : Nat) (t : TransitionData) (h : tj ≠ ti) :
    dget (writeT n ti t).transitions tj = dget n.transitions tj := by
  show dget (dmodify n.transitions ti (fun _ => t)) tj = _
  exact dget_dmodify_ne _ _ _ _ h

theorem stopFiring_tkeys (n : Net) (ti : Nat) :
    dkeys (stopFiring n ti).transitions = dkeys n.transitions := by
  show dkeys (dmodify n.transitions ti (fun u => { u with work_status := "unfiring" })) =
    dkeys n.transitions
  exact dkeys_dmodify _ _ _

theorem stopFiring_dget_self (n : Net) (ti : Nat) :
    dget (stopFiring n ti).transitions ti =
      (dget n.transitions ti).map (fun u => { u with work_status := "unfiring" }) := by
  show dget (dmodify n.transitions ti (fun u => { u with work_status := "unfiring" })) ti = _
  exact dget_dmodify_self _ _ _

theorem stopFiring_dget_ne (n : Net) (ti tj : Nat) (h : tj ≠ ti) :
    dget (stopFiring n ti).transitions tj = dget n.transitions tj := by
  show dget (dmodify n.transitions ti (fun u => { u with work_status := "unfiring" })) tj = _
  exact dget_dmodify_ne _ _ _ _ h

theorem tickGo_cons_false {dt : Rat} {n : Net} {ti : Nat} {t : TransitionData}
    (hd : dget n.transitions ti = some t) (hc : (tickT t dt).1 = false)
    (rest : List Nat) (acc : List String) :
    tickGo dt n (ti :: rest) acc = tickGo dt (writeT n ti (tickT t dt).2) rest acc := by
  simp only [tickGo, hd, hc]
  rw [if_neg Bool.false_ne_true]

theorem tickGo_cons_true {dt : Rat} {n : Net} {ti : Nat} {t : TransitionData}
    (hd : dget n.transitions ti = some t) (hc : (tickT t dt).1 = true)
    (rest : List Nat) (acc : List String) :
    tickGo dt n (ti :: rest) acc =
      match fireOutputs (writeT n ti (tickT t dt).2) (tickT t dt).2.out_arcs with
      | .error n2 => .error n2
      | .ok n2 =>
        match update_ready_transition (stopFiring n2 ti) with
        | .error n4 => .error n4
        | .ok n4 => tickGo dt n4 rest (acc ++ [t.name]) := by
  simp only [tickGo, hd, if_pos hc]

/-- C6 (amended): after a transition is started by a successful
`on_fire_transition` with consumption duration `D = t1.consumption > 0`
(so `t1` is `firing` with remaining time `D`), and provided no other
transition is currently firing, every out-arc resolves to a place whose
marking covers the annotation keys, and every registered in-arc is
resolvable (so neither the production loop nor the readiness recompute
raises): `tick d1` with `0 ≤ d1 < D` completes nothing — the transition
stays `firing` with remaining time `D - d1` and no place marking changes —
and the subsequent `tick d2` with `d2 ≥ 0`, `d1 + d2 ≥ D` reports exactly
`[t1.name]` completed, leaves the transition `unfiring` with time `0`,
and adds each out-arc annotation to its destination marking. -/
theorem claim6_two_phase
    (n0 n1 : Net) (ti : Nat) (t1 : TransitionData) (d1 d2 : Rat)
    (hof : on_fire_transition n0 ti = .ok (true, n1))
    (ht1 : dget n1.transitions ti = some t1)
    (hnd : (dkeys n1.transitions).Nodup)
    (hpd : (dkeys n1.places).Nodup)
    (honly : ∀ e ∈ n1.transitions, e.1 ≠ ti → e.2.work_status ≠ "firing")
    (hD : 0 < t1.consumption)
    (hd1 : 0 ≤ d1) (hd2 : 0 ≤ d2)
    (hd1D : d1 < t1.consumption)
    (hsum : t1.consumption ≤ d1 + d2)
    (hps : ∀ aid ∈ t1.out_arcs, prodSafe n1 aid = true)
    (hcs : checkSafe n1 = true) :
    ∃ n2 n3,
      tick n1 d1 = .ok ([], n2) ∧
      n2.places = n1.places ∧
      dget n2.transitions ti = some { t1 with time := t1.consumption - d1 } ∧
      t1.work_status = "firing" ∧
      tick n2 d2 = .ok ([t1.name], n3) ∧
      (∃ u, dget n3.transitions ti = some u ∧ u.work_status = "unfiring" ∧ u.time = 0) ∧
      n3.places = n1.places.map (fun e => (e.1, { e.2 with
        marking := e.2.marking.map (fun kv =>
          (kv.1, kv.2 + outSum n1.arcs t1.out_arcs e.1 kv.1)) })) := by
  obtain ⟨ta, t1a, n2a, hdta, hrla, hdt1a, hina, houta, hwnsa, hfia, hn1eq⟩ := on_fire_true_inv hof
  obtain ⟨pl, hplz⟩ := fireInputs_shape t1a.in_arcs (setStatus n0 ti true)
  rw [hfia] at hplz
  have hn2a : n2a = { setStatus n0 ti true with places := pl } := hplz
  have htr2a : n2a.transitions = (setStatus n0 ti true).transitions := by rw [hn2a]
  have hdg1 : dget n1.transitions ti =
      some { t1a with work_status := "firing", time := t1a.consumption } := by
    rw [hn1eq]
    show dget (dmodify n2a.transitions ti
      (fun u => { u with work_status := "firing", time := u.consumption })) ti = _
    rw [dget_dmodify_self, htr2a, hdt1a]
    rfl
  have ht1eq : t1 = { t1a with work_status := "firing", time := t1a.consumption } :=
    Option.some_injective _ (ht1.symm.trans hdg1)
  have hfir : t1.work_status = "firing" := by rw [ht1eq]
  have htimeEq : t1.time = t1.consumption := by rw [ht1eq]
  have honlyK : ∀ tj, tj ≠ ti → ∀ u, dget n1.transitions tj = some u →
      u.work_status ≠ "firing" :=
    fun tj hne u hd => honly (tj, u) (mem_of_dget hd) hne
  have hmem_ti : ti ∈ dkeys n1.transitions := by
    rw [← dget_isSome_iff, ht1]
    rfl
  obtain ⟨pre, post, hsplit⟩ := List.append_of_mem hmem_ti
  have hnd' : (pre ++ ti :: post).Nodup := hsplit ▸ hnd
  obtain ⟨hndpre, hndtp, hdisj⟩ := List.nodup_append.mp hnd'
  have hti_pre : ti ∉ pre := fun h => hdisj h (List.mem_cons_self _ _)
  have hti_post : ti ∉ post := (List.nodup_cons.mp hndtp).1
  have htk1 : tickT t1 d1 = (false, { t1 with time := t1.consumption - d1 }) := by
    unfold tickT
    rw [if_pos hfir]
    have hneg : ¬(t1.time - d1 ≤ 0) := by
      rw [htimeEq]
      intro hcon
      linarith
    simp only [if_neg hneg]
    rw [htimeEq]
  have htk2 : tickT { t1 with time := t1.consumption - d1 } d2 = (true, { t1 with time := 0 }) := by
    unfold tickT
    rw [if_pos (show ({ t1 with time := t1.consumption - d1 } : TransitionData).work_status =
      "firing" from hfir)]
    have hle : ({ t1 with time := t1.consumption - d1 } : TransitionData).time - d2 ≤ 0 := by
      show t1.consumption - d1 - d2 ≤ 0
      linarith
    simp only [if_pos hle]
  have hpre1 : tickGo d1 n1 pre [] = .ok ([], n1) := by
    apply tickGo_inert
    · exact hnd
    · intro tj htj u hdu
      exact honlyK tj (fun he => hti_pre (he ▸ htj)) u hdu
  have hdg2 : dget (writeT n1 ti { t1 with time := t1.consumption - d1 }).transitions ti =
      some { t1 with time := t1.consumption - d1 } := by
    rw [writeT_dget_self, ht1]
    rfl
  have hkeys2 : dkeys (writeT n1 ti { t1 with time := t1.consumption - d1 }).transitions =
      dkeys n1.transitions := writeT_tkeys _ _ _
  have hnd2 : (dkeys (writeT n1 ti { t1 with time := t1.consumption - d1 }).transitions).Nodup := by
    rw [hkeys2]
    exact hnd
  have hstep1 : tickGo d1 n1 (ti :: post) [] =
      .ok ([], writeT n1 ti { t1 with time := t1.consumption - d1 }) := by
    rw [tickGo_cons_false ht1 (by rw [htk1]) post []]
    have h2c : (tickT t1 d1).2 = { t1 with time := t1.consumption - d1 } := by rw [htk1]
    rw [h2c]
    apply tickGo_inert
    · exact hnd2
    · intro tj htj u hdu
      have hne : tj ≠ ti := fun he => hti_post (he ▸ htj)
      rw [writeT_dget_ne _ _ _ _ hne] at hdu
      exact honlyK tj hne u hdu
  have h1 : tick n1 d1 = .ok ([], writeT n1 ti { t1 with time := t1.consumption - d1 }) := by
    show tickGo d1 n1 (dkeys n1.transitions) [] = _
    rw [hsplit, tickGo_append, hpre1]
    exact hstep1
  have hpsm : ∀ aid ∈ ({ t1 with time := 0 } : TransitionData).out_arcs,
      prodSafe (writeT (writeT n1 ti { t1 with time := t1.consumption - d1 }) ti
        { t1 with time := 0 }) aid = true :=
    fun aid ha => prodSafe_mono rfl (fun s => rfl) (hps aid ha)
  obtain ⟨n5, hfo, hpk5, harc5, htr5⟩ :=
    fireOutputs_ok_of_safe ({ t1 with time := 0 } : TransitionData).out_arcs
      (writeT (writeT n1 ti { t1 with time := t1.consumption - d1 }) ti { t1 with time := 0 }) hpsm
  have hchar : n5.places = n1.places.map (fun e => (e.1, { e.2 with
      marking := e.2.marking.map (fun kv =>
        (kv.1, kv.2 + outSum n1.arcs t1.out_arcs e.1 kv.1)) })) :=
    fireOutputs_char ({ t1 with time := 0 } : TransitionData).out_arcs
      (writeT (writeT n1 ti { t1 with time := t1.consumption - d1 }) ti { t1 with time := 0 })
      n5 hpd hfo
  have hget5 : dget n5.transitions ti = some ({ t1 with time := 0 } : TransitionData) := by
    rw [htr5, writeT_dget_self, hdg2]
    rfl
  have hnd5 : (dkeys n5.transitions).Nodup := by
    rw [htr5, writeT_tkeys, writeT_tkeys]
    exact hnd
  have hcs3 : checkSafe (stopFiring n5 ti) = true := by
    refine @checkSafe_mono n1 (stopFiring n5 ti) ?_ ?_ ?_ hcs
    · exact harc5
    · have e1 : (dmodify n5.transitions ti
          (fun u => { u with work_status := "unfiring" })).map (fun e => (e.1, e.2.in_arcs)) =
          n5.transitions.map (fun e => (e.1, e.2.in_arcs)) :=
        map_dmodify_nodup hnd5 hget5 _ _ rfl
      have e2 : n5.transitions.map (fun e => (e.1, e.2.in_arcs)) =
          (writeT (writeT n1 ti { t1 with time := t1.consumption - d1 }) ti
            { t1 with time := 0 }).transitions.map (fun e => (e.1, e.2.in_arcs)) := by
        rw [htr5]
      have e3 : (dmodify (writeT n1 ti { t1 with time := t1.consumption - d1 }).transitions ti
          (fun _ => ({ t1 with time := 0 } : TransitionData))).map (fun e => (e.1, e.2.in_arcs)) =
          (writeT n1 ti { t1 with time := t1.consumption - d1 }).transitions.map
            (fun e => (e.1, e.2.in_arcs)) :=
        map_dmodify_nodup hnd2 hdg2 _ _ rfl
      have e4 : (dmodify n1.transitions ti
          (fun _ => ({ t1 with time := t1.consumption - d1 } : TransitionData))).map
            (fun e => (e.1, e.2.in_arcs)) =
          n1.transitions.map (fun e => (e.1, e.2.in_arcs)) :=
        map_dmodify_nodup hnd ht1 _ _ rfl
      exact e1.trans (e2.trans (e3.trans e4))
    · intro s
      exact hpk5 s
  obtain ⟨n4, hur⟩ := update_ready_ok_of_safe hcs3
  obtain ⟨ts4, hts4⟩ := update_ready_shape (stopFiring n5 ti)
  rw [hur] at hts4
  have hn4 : n4 = { stopFiring n5 ti with transitions := ts4 } := hts4
  have hplc4 : n4.places = n5.places := by
    rw [hn4]
    rfl
  have hkeys4 : dkeys n4.transitions = dkeys (stopFiring n5 ti).transitions := by
    have hh := update_ready_tkeys (stopFiring n5 ti)
    rw [hur] at hh
    exact hh
  have hnd4 : (dkeys n4.transitions).Nodup := by
    rw [hkeys4, stopFiring_tkeys]
    exact hnd5
  have htmap4 : n4.transitions.map (fun e => (e.1, (e.2.work_status, e.2.time))) =
      (stopFiring n5 ti).transitions.map (fun e => (e.1, (e.2.work_status, e.2.time))) := by
    have hh := update_ready_tmap (stopFiring n5 ti)
      (fun e => (e.1, (e.2.work_status, e.2.time))) (fun i u s => rfl)
    rw [hur] at hh
    exact hh
  have hproj4 : ∀ k, (dget n4.transitions k).map (fun u => (u.work_status, u.time)) =
      (dget (stopFiring n5 ti).transitions k).map (fun u => (u.work_status, u.time)) :=
    dget_proj_of_map_eq (fun u : TransitionData => (u.work_status, u.time)) _ _ htmap4
  have hinert4 : ∀ tj ∈ post, ∀ u, dget n4.transitions tj = some u →
      u.work_status ≠ "firing" := by
    intro tj htj u hdu
    have hne : tj ≠ ti := fun he => hti_post (he ▸ htj)
    have hh := hproj4 tj
    rw [hdu, stopFiring_dget_ne _ _ _ hne, htr5, writeT_dget_ne _ _ _ _ hne,
      writeT_dget_ne _ _ _ _ hne] at hh
    cases hdgj : dget n1.transitions tj with
    | none =>
      rw [hdgj] at hh
      exact Option.noConfusion hh
    | some u0 =>
      rw [hdgj] at hh
      simp only [Option.map_some'] at hh
      have hpair : (u.work_status, u.time) = (u0.work_status, u0.time) :=
        Option.some_injective _ hh
      have hws : u.work_status = u0.work_status := congrArg Prod.fst hpair
      rw [hws]
      exact honlyK tj hne u0 hdgj
  have hpost2 : tickGo d2 n4 post [t1.name] = .ok ([t1.name], n4) :=
    tickGo_inert d2 post n4 [t1.name] hnd4 hinert4
  have hpre2 : tickGo d2 (writeT n1 ti { t1 with time := t1.consumption - d1 }) pre [] =
      .ok ([], writeT n1 ti { t1 with time := t1.consumption - d1 }) := by
    apply tickGo_inert
    · exact hnd2
    · intro tj htj u hdu
      have hne : tj ≠ ti := fun he => hti_pre (he ▸ htj)
      rw [writeT_dget_ne _ _ _ _ hne] at hdu
      exact honlyK tj hne u hdu
  have hstep2 : tickGo d2 (writeT n1 ti { t1 with time := t1.consumption - d1 })
      (ti :: post) [] = .ok ([t1.name], n4) := by
    rw [tickGo_cons_true hdg2 (by rw [htk2]) post []]
    have h2c : (tickT ({ t1 with time := t1.consumption - d1 } : TransitionData) d2).2 =
        ({ t1 with time := 0 } : TransitionData) := by rw [htk2]
    rw [h2c, hfo]
    dsimp only
    rw [hur]
    dsimp only
    show tickGo d2 n4 post [t1.name] = _
    exact hpost2
  have h2 : tick (writeT n1 ti { t1 with time := t1.consumption - d1 }) d2 =
      .ok ([t1.name], n4) := by
    show tickGo d2 (writeT n1 ti { t1 with time := t1.consumption - d1 })
      (dkeys (writeT n1 ti { t1 with time := t1.consumption - d1 }).transitions) [] = _
    rw [hkeys2, hsplit, tickGo_append, hpre2]
    exact hstep2
  refine ⟨writeT n1 ti { t1 with time := t1.consumption - d1 }, n4, h1, rfl, hdg2, hfir, h2,
    ?_, ?_⟩
  · have hdgm3 : dget (stopFiring n5 ti).transitions ti =
        some { ({ t1 with time := 0 } : TransitionData) with work_status := "unfiring" } := by
      rw [stopFiring_dget_self, hget5]
      rfl
    have hh := hproj4 ti
    rw [hdgm3] at hh
    cases hdg4 : dget n4.transitions ti with
    | none =>
      rw [hdg4] at hh
      exact Option.noConfusion hh
    | some u =>
      rw [hdg4] at hh
      simp only [Option.map_some'] at hh
      have hpair := Option.some_injective _ hh
      exact ⟨u, rfl, congrArg Prod.fst hpair, congrArg Prod.snd hpair⟩
  · rw [hplc4, hchar]

theorem dset_cons_ne {κ β : Type} [DecidableEq κ] (e : κ × β) (m : List (κ × β)) (k : κ) (v : β)
    (h : k ≠ e.1) : dset (e :: m) k v = e :: dset m k v := by
  unfold dset
  have hne : ¬ (e.1 = k) := fun hc => h hc.symm
  have hh : dget (e :: m) k = dget m k := by
    simp only [dget, if_neg hne]
  rw [hh]
  by_cases hs : (dget m k).isSome = true
  · rw [if_pos hs, if_pos hs]
    simp only [List.map_cons, if_neg hne]
  · rw [if_neg hs, if_neg hs]
    rfl

theorem foldl_dset_keep_head {κ β : Type} [DecidableEq κ] :
    ∀ (init : List (κ × β)) (e : κ × β) (m : List (κ × β)), e.1 ∉ dkeys init →
      init.foldl (fun m kv => dset m kv.1 kv.2) (e :: m) =
        e :: init.foldl (fun m kv => dset m kv.1 kv.2) m := by
  intro init
  induction init with
  | nil =>
    intro e m _
    rfl
  | cons kv rest ih =>
    intro e m h
    simp only [dkeys, List.map_cons, List.mem_cons, not_or] at h
    have hne : kv.1 ≠ e.1 := fun hc => h.1 hc.symm
    simp only [List.foldl_cons]
    rw [dset_cons_ne e m kv.1 kv.2 hne]
    exact ih e (dset m kv.1 kv.2) (by simpa [dkeys] using h.2)

theorem foldl_dset_restore {κ β : Type} [DecidableEq κ] :
    ∀ (init m : List (κ × β)), dkeys m = dkeys init → (dkeys init).Nodup →
      init.foldl (fun m kv => dset m kv.1 kv.2) m = init := by
  intro init
  induction init with
  | nil =>
    intro m hk _
    simp only [dkeys, List.map_nil, List.map_eq_nil_iff] at hk
    rw [hk]
    rfl
  | cons kv rest ih =>
    intro m hk hnd
    cases m with
    | nil => exact absurd hk (by simp [dkeys])
    | cons e m2 =>
      simp only [dkeys, List.map_cons, List.cons.injEq] at hk
      obtain ⟨hke, hkt⟩ := hk
      simp only [dkeys, List.map_cons, List.nodup_cons] at hnd
      obtain ⟨hk1, hndr⟩ := hnd
      have hset : dset (e :: m2) kv.1 kv.2 = (kv.1, kv.2) :: m2 := by
        unfold dset
        have hget : dget (e :: m2) kv.1 = some e.2 := by
          simp only [dget, if_pos hke]
        rw [hget]
        simp only [Option.isSome_some, if_true, List.map_cons, if_pos hke]
        have hm2 : m2.map (fun x => if x.1 = kv.1 then (kv.1, kv.2) else x) = m2 := by
          have hpt : ∀ x ∈ m2, (if x.1 = kv.1 then (kv.1, kv.2) else x) = x := by
            intro x hx
            have hxk : x.1 ∈ List.map Prod.fst rest := by
              rw [← hkt]
              exact List.mem_map.mpr ⟨x, hx, rfl⟩
            have hxne : ¬ (x.1 = kv.1) := fun hc => hk1 (hc ▸ hxk)
            exact if_neg hxne
          exact (List.map_congr_left hpt).trans (List.map_id m2)
        rw [hm2]
      simp only [List.foldl_cons]
      rw [hset]
      have hhd : (kv.1, kv.2) = kv := rfl
      rw [hhd, foldl_dset_keep_head rest kv m2 hk1]
      rw [ih m2 hkt hndr]

/-- `Place.initialize` restores exactly the initial marking when the
current marking holds the same keys in the same order. -/
theorem restore_exact (p : PlaceData) (hk : dkeys p.marking = dkeys p.initial_marking)
    (hnd : (dkeys p.initial_marking).Nodup) :
    (restoreMarking p).marking = p.initial_marking :=
  foldl_dset_restore p.initial_marking p.marking hk hnd

theorem PEvo_refl (n : Net) : PEvo n n := ⟨rfl, fun e he => ⟨e, he, rfl, rfl⟩⟩

theorem PEvo_trans {m1 m2 m3 : Net} (h12 : PEvo m1 m2) (h23 : PEvo m2 m3) : PEvo m1 m3 := by
  refine ⟨h23.1.trans h12.1, ?_⟩
  intro e3 he3
  obtain ⟨e2, he2, hi, hkk⟩ := h23.2 e3 he3
  obtain ⟨e1, he1, hi2, hk2⟩ := h12.2 e2 he2
  exact ⟨e1, he1, hi.trans hi2, hkk.trans hk2⟩

theorem PEvo_of_places_eq {n n' : Net} (h : n'.places = n.places) : PEvo n n' := by
  refine ⟨by rw [h], ?_⟩
  intro e he
  rw [h] at he
  exact ⟨e, he, rfl, rfl⟩

theorem PEvo_setMarking {n : Net} {s : Nat} {mk : Marking} {p : PlaceData}
    (hnd : (dkeys n.places).Nodup) (hp : dget n.places s = some p)
    (hkk : dkeys mk = dkeys p.marking) : PEvo n (setMarking n s mk) := by
  constructor
  · show dkeys (dmodify n.places s (fun q => { q with marking := mk })) = dkeys n.places
    exact dkeys_dmodify _ _ _
  · intro e' he'
    have he'2 : e' ∈ n.places.map
        (fun e => if e.1 = s then (e.1, { e.2 with marking := mk }) else e) := he'
    obtain ⟨e, he, heq⟩ := List.mem_map.mp he'2
    by_cases hes : e.1 = s
    · have hgete : dget n.places e.1 = some e.2 := entry_dget_of_nodup hnd he
      rw [hes, hp] at hgete
      have hep : e.2 = p := Option.some_injective _ hgete.symm
      refine ⟨e, he, ?_, ?_⟩
      · rw [← heq]
        simp only [if_pos hes]
      · rw [← heq]
        simp only [if_pos hes]
        show dkeys mk = dkeys e.2.marking
        rw [hkk, hep]
    · refine ⟨e, he, ?_, ?_⟩ <;> rw [← heq] <;> simp only [if_neg hes]

theorem consumeArc_pevo {n : Net} (hnd : (dkeys n.places).Nodup) (aid : Nat) :
    PEvo n (stE (consumeArc n aid)) := by
  unfold consumeArc
  cases hg : getArc n aid with
  | none => exact PEvo_refl n
  | some a =>
    dsimp only
    cases hni : a.node_in with
    | trans i => exact PEvo_refl n
    | place pid =>
      dsimp only
      cases hp : dget n.places pid with
      | none => exact PEvo_refl n
      | some p =>
        dsimp only
        have hev : PEvo n (setMarking n pid (subMark a.ann p.marking).1) :=
          PEvo_setMarking hnd hp (subMark_keys a.ann p.marking)
        by_cases hs : (subMark a.ann p.marking).2 = true
        · rw [if_pos hs]
          exact hev
        · rw [if_neg hs]
          exact hev

theorem produceArc_pevo {n : Net} (hnd : (dkeys n.places).Nodup) (aid : Nat) :
    PEvo n (stE (produceArc n aid)) := by
  unfold produceArc
  cases hg : getArc n aid with
  | none => exact PEvo_refl n
  | some a =>
    dsimp only
    cases hno : a.node_out with
    | trans i => exact PEvo_refl n
    | place pid =>
      dsimp only
      cases hp : dget n.places pid with
      | none => exact PEvo_refl n
      | some p =>
        dsimp only
        have hev : PEvo n (setMarking n pid (addMark a.ann p.marking).1) :=
          PEvo_setMarking hnd hp (addMark_keys a.ann p.marking)
        by_cases hs : (addMark a.ann p.marking).2 = true
        · rw [if_pos hs]
          exact hev
        · rw [if_neg hs]
          exact hev

theorem fireInputs_pevo : ∀ (l : List Nat) (n : Net), (dkeys n.places).Nodup →
    PEvo n (stE (fireInputs n l)) := by
  intro l
  induction l with
  | nil => intro n _; exact PEvo_refl n
  | cons aid rest ih =>
    intro n hnd
    simp only [fireInputs]
    cases hc : consumeArc n aid with
    | error n' =>
      have h := consumeArc_pevo hnd aid
      rw [hc] at h
      exact h
    | ok n' =>
      have h := consumeArc_pevo hnd aid
      rw [hc] at h
      have hx : dkeys n'.places = dkeys n.places := h.1
      have hnd' : (dkeys n'.places).Nodup := by rw [hx]; exact hnd
      exact PEvo_trans h (ih n' hnd')

theorem fireOutputs_pevo : ∀ (l : List Nat) (n : Net), (dkeys n.places).Nodup →
    PEvo n (stE (fireOutputs n l)) := by
  intro l
  induction l with
  | nil => intro n _; exact PEvo_refl n
  | cons aid rest ih =>
    intro n hnd
    simp only [fireOutputs]
    cases hc : produceArc n aid with
    | error n' =>
      have h := produceArc_pevo hnd aid
      rw [hc] at h
      exact h
    | ok n' =>
      have h := produceArc_pevo hnd aid
      rw [hc] at h
      have hx : dkeys n'.places = dkeys n.places := h.1
      have hnd' : (dkeys n'.places).Nodup := by rw [hx]; exact hnd
      exact PEvo_trans h (ih n' hnd')

theorem update_ready_pevo (n : Net) : PEvo n (stE (update_ready_transition n)) := by
  obtain ⟨ts, hts⟩ := update_ready_shape n
  exact PEvo_of_places_eq (by rw [hts])

theorem fire_pevo (n : Net) (ti : Nat) (hnd : (dkeys n.places).Nodup) :
    PEvo n (stP (fire_transition n ti)) := by
  unfold fire_transition
  cases hd : dget n.transitions ti with
  | none => exact PEvo_refl n
  | some t =>
    dsimp only
    cases htrc : transition_ready_check n ti with
    | error n' =>
      obtain rfl := trc_err_inv htrc
      exact PEvo_refl n'
    | ok r =>
      obtain ⟨b, n1⟩ := r
      obtain ⟨t0, ht0, hb0, hn1⟩ := trc_ok_inv htrc
      have hpl1 : n1.places = n.places := by rw [hn1]; rfl
      have hnd1 : (dkeys n1.places).Nodup := by rw [hpl1]; exact hnd
      have hev1 : PEvo n n1 := PEvo_of_places_eq hpl1
      cases b with
      | false => exact hev1
      | true =>
        dsimp only
        cases hd1 : dget n1.transitions ti with
        | none => exact hev1
        | some t1 =>
          dsimp only
          cases hfi : fireInputs n1 t1.in_arcs with
          | error n2 =>
            have h2 := fireInputs_pevo t1.in_arcs n1 hnd1
            rw [hfi] at h2
            exact PEvo_trans hev1 h2
          | ok n2 =>
            have h2 := fireInputs_pevo t1.in_arcs n1 hnd1
            rw [hfi] at h2
            have hx2 : dkeys n2.places = dkeys n1.places := h2.1
            have hnd2 : (dkeys n2.places).Nodup := by rw [hx2]; exact hnd1
            dsimp only
            cases hfo : fireOutputs n2 t1.out_arcs with
            | error n3 =>
              have h3 := fireOutputs_pevo t1.out_arcs n2 hnd2
              rw [hfo] at h3
              exact PEvo_trans hev1 (PEvo_trans h2 h3)
            | ok n3 =>
              have h3 := fireOutputs_pevo t1.out_arcs n2 hnd2
              rw [hfo] at h3
              have hu := update_ready_pevo n3
              dsimp only
              cases hur : update_ready_transition n3 with
              | error n4 =>
                rw [hur] at hu
                exact PEvo_trans hev1 (PEvo_trans h2 (PEvo_trans h3 hu))
              | ok n4 =>
                rw [hur] at hu
                exact PEvo_trans hev1 (PEvo_trans h2 (PEvo_trans h3 hu))

theorem on_fire_pevo (n : Net) (ti : Nat) (hnd : (dkeys n.places).Nodup) :
    PEvo n (stP (on_fire_transition n ti)) := by
  unfold on_fire_transition
  cases hd : dget n.transitions ti with
  | none => exact PEvo_refl n
  | some t =>
    dsimp only
    cases htrc : transition_ready_check n ti with
    | error n' =>
      obtain rfl := trc_err_inv htrc
      exact PEvo_refl n'
    | ok r =>
      obtain ⟨b, n1⟩ := r
      obtain ⟨t0, ht0, hb0, hn1⟩ := trc_ok_inv htrc
      have hpl1 : n1.places = n.places := by rw [hn1]; rfl
      have hnd1 : (dkeys n1.places).Nodup := by rw [hpl1]; exact hnd
      have hev1 : PEvo n n1 := PEvo_of_places_eq hpl1
      cases b with
      | false => exact hev1
      | true =>
        dsimp only
        cases hd1 : dget n1.transitions ti with
        | none => exact hev1
        | some t1 =>
          dsimp only
          by_cases hw : t1.work_status = "firing"
          · rw [if_pos hw]
            exact hev1
          · rw [if_neg hw]
            cases hfi : fireInputs n1 t1.in_arcs with
            | error n2 =>
              have h2 := fireInputs_pevo t1.in_arcs n1 hnd1
              rw [hfi] at h2
              exact PEvo_trans hev1 h2
            | ok n2 =>
              have h2 := fireInputs_pevo t1.in_arcs n1 hnd1
              rw [hfi] at h2
              have hsf : (startFiring n2 ti).places = n2.places := rfl
              exact PEvo_trans hev1 (PEvo_trans h2 (PEvo_of_places_eq hsf))

theorem tickGo_pevo (dt : Rat) : ∀ (ids : List Nat) (n : Net) (acc : List String),
    (dkeys n.places).Nodup → PEvo n (stP (tickGo dt n ids acc)) := by
  intro ids
  induction ids with
  | nil => intro n acc _; exact PEvo_refl n
  | cons ti rest ih =>
    intro n acc hnd
    cases hd : dget n.transitions ti with
    | none =>
      simp only [tickGo, hd]
      exact ih n acc hnd
    | some t =>
      by_cases hb : (tickT t dt).1 = true
      · simp only [tickGo, hd, if_pos hb]
        have hwp : (writeT n ti (tickT t dt).2).places = n.places := rfl
        have hndw : (dkeys (writeT n ti (tickT t dt).2).places).Nodup := hnd
        have hfoe := fireOutputs_pevo (tickT t dt).2.out_arcs (writeT n ti (tickT t dt).2) hndw
        cases hfo : fireOutputs (writeT n ti (tickT t dt).2) (tickT t dt).2.out_arcs with
        | error n2 =>
          rw [hfo] at hfoe
          exact PEvo_trans (PEvo_of_places_eq hwp) hfoe
        | ok n2 =>
          rw [hfo] at hfoe
          have hev2 : PEvo n n2 := PEvo_trans (PEvo_of_places_eq hwp) hfoe
          have hsp : (stopFiring n2 ti).places = n2.places := rfl
          have hev3 : PEvo n (stopFiring n2 ti) := PEvo_trans hev2 (PEvo_of_places_eq hsp)
          have huev := update_ready_pevo (stopFiring n2 ti)
          dsimp only
          cases hur : update_ready_transition (stopFiring n2 ti) with
          | error n4 =>
            rw [hur] at huev
            exact PEvo_trans hev3 huev
          | ok n4 =>
            rw [hur] at huev
            have hev4 : PEvo n n4 := PEvo_trans hev3 huev
            have hnd4 : (dkeys n4.places).Nodup := by rw [hev4.1]; exact hnd
            exact PEvo_trans hev4 (ih n4 (acc ++ [t.name]) hnd4)
      · simp only [tickGo, hd, if_neg hb]
        have hwp : (writeT n ti (tickT t dt).2).places = n.places := rfl
        have hndw : (dkeys (writeT n ti (tickT t dt).2).places).Nodup := hnd
        exact PEvo_trans (PEvo_of_places_eq hwp)
          (ih (writeT n ti (tickT t dt).2) acc hndw)

theorem MarkWF_of_pevo {n n' : Net} (h : PEvo n n') (hwf : MarkWF n) : MarkWF n' := by
  intro e' he'
  obtain ⟨e, he, hi, hkk⟩ := h.2 e' he'
  obtain ⟨h1, h2⟩ := hwf e he
  constructor
  · rw [hkk, hi, h1]
  · rw [hi]
    exact h2

theorem applyOps_pevo : ∀ (l : List Op) (n : Net), (dkeys n.places).Nodup →
    (∀ op ∈ l, FiringOp op) → PEvo n (applyOps n l) := by
  intro l
  induction l with
  | nil => intro n _ _; exact PEvo_refl n
  | cons op rest ih =>
    intro n hnd hops
    have hstep : PEvo n (applyOp n op) := by
      cases op with
      | fire ti => exact fire_pevo n ti hnd
      | onFire ti => exact on_fire_pevo n ti hnd
      | tickBy dt => exact tickGo_pevo dt (dkeys n.transitions) n [] hnd
      | addNode x => exact absurd (hops _ (List.mem_cons_self _ _)) (fun hc => hc)
      | addArc r1 r2 aid => exact absurd (hops _ (List.mem_cons_self _ _)) (fun hc => hc)
      | doReset => exact absurd (hops _ (List.mem_cons_self _ _)) (fun hc => hc)
    have hnd1 : (dkeys (applyOp n op).places).Nodup := by rw [hstep.1]; exact hnd
    have hih := ih (applyOp n op) hnd1 (fun o ho => hops o (List.mem_cons_of_mem _ ho))
    exact PEvo_trans hstep hih

/-- C8: after any history of firing and ticking over a net whose
markings are well-formed (marking keys match the initial-marking keys,
which are duplicate-free — true of every net built through the Python
constructors), one `reset` makes every place's marking exactly its
recorded initial marking, and a second `reset` leaves every marking
exactly as after the first: reset is exact and idempotent on markings. -/
theorem claim8_reset_exact_idempotent
    (n : Net) (l : List Op)
    (hnd : (dkeys n.places).Nodup)
    (hwf : MarkWF n)
    (hops : ∀ op ∈ l, FiringOp op) :
    (∀ e ∈ (applyOps n (l ++ [Op.doReset])).places, e.2.marking = e.2.initial_marking) ∧
    (applyOps n (l ++ [Op.doReset, Op.doReset])).places.map (fun e => (e.1, e.2.marking)) =
      (applyOps n (l ++ [Op.doReset])).places.map (fun e => (e.1, e.2.marking)) := by
  have hev : PEvo n (applyOps n l) := applyOps_pevo l n hnd hops
  have hwf1 : MarkWF (applyOps n l) := MarkWF_of_pevo hev hwf
  have happ1 : applyOps n (l ++ [Op.doReset]) = applyOp (applyOps n l) Op.doReset := by
    show (l ++ [Op.doReset]).foldl applyOp n = _
    rw [List.foldl_append]
    rfl
  have happ2 : applyOps n (l ++ [Op.doReset, Op.doReset]) =
      applyOp (applyOp (applyOps n l) Op.doReset) Op.doReset := by
    show (l ++ [Op.doReset, Op.doReset]).foldl applyOp n = _
    rw [List.foldl_append]
    rfl
  have hrst : ∀ m : Net, (applyOp m Op.doReset).places =
      m.places.map (fun e => (e.1, restoreMarking e.2)) := by
    intro m
    show (stE (update_ready_transition (reset_net m))).places = _
    obtain ⟨ts, hts⟩ := update_ready_shape (reset_net m)
    rw [hts]
    rfl
  have hmain : ∀ e ∈ (applyOp (applyOps n l) Op.doReset).places,
      e.2.marking = e.2.initial_marking := by
    intro e he
    rw [hrst (applyOps n l)] at he
    obtain ⟨e0, he0, heq⟩ := List.mem_map.mp he
    obtain ⟨hk0, hnd0⟩ := hwf1 e0 he0
    rw [← heq]
    show (restoreMarking e0.2).marking = (restoreMarking e0.2).initial_marking
    have hi : (restoreMarking e0.2).initial_marking = e0.2.initial_marking := rfl
    rw [hi]
    exact restore_exact e0.2 hk0 hnd0
  constructor
  · rw [happ1]
    exact hmain
  · rw [happ1, happ2, hrst (applyOp (applyOps n l) Op.doReset)]
    rw [List.map_map]
    apply List.map_congr_left
    intro e he
    have hmk : e.2.marking = e.2.initial_marking := hmain e he
    have hndk : (dkeys e.2.initial_marking).Nodup := by
      have hh := he
      rw [hrst (applyOps n l)] at hh
      obtain ⟨e0, he0, heq⟩ := List.mem_map.mp hh
      obtain ⟨hk0, hnd0⟩ := hwf1 e0 he0
      rw [← heq]
      exact hnd0
    show (e.1, (restoreMarking e.2).marking) = (e.1, e.2.marking)
    have hre : (restoreMarking e.2).marking = e.2.initial_marking :=
      restore_exact e.2 (by rw [hmk]) hndk
    rw [hre, hmk]

theorem addOut_arcs (n : Net) (r : NodeRef) (tgt aid : Nat) :
    (addOut n r tgt aid).arcs = n.arcs := by
  cases r <;> rfl

theorem addIn_arcs (n : Net) (r : NodeRef) (src aid : Nat) :
    (addIn n r src aid).arcs = n.arcs := by
  cases r <;> rfl

/-- C10: every arc registered through a successful `add_arc` carries the
`Arc` constructor's default annotation, the single color `"0"` with
weight `1` — `add_arc` passes no weights, so the default always applies. -/
theorem claim10_default_weight {n n' : Net} {r1 r2 : NodeRef} {aid : Nat}
    (h : add_arc n r1 r2 aid = .ok n') :
    ∃ a, getArc n' aid = some a ∧ a.ann = [("0", 1)] := by
  unfold add_arc add_arc_ann at h
  cases hmk : mkArcData n r1 r2 [("0", 1)] with
  | none =>
    simp only [hmk] at h
    exact Except.noConfusion h
  | some a =>
    simp only [hmk] at h
    have hann : a.ann = [("0", 1)] := by
      cases r1 with
      | place i =>
        cases r2 with
        | place j =>
          simp only [mkArcData] at hmk
          exact Option.noConfusion hmk
        | trans j =>
          simp only [mkArcData, Option.some.injEq] at hmk
          rw [← hmk]
      | trans i =>
        cases r2 with
        | place j =>
          simp only [mkArcData, Option.some.injEq] at hmk
          rw [← hmk]
        | trans j =>
          simp only [mkArcData] at hmk
          exact Option.noConfusion hmk
    obtain ⟨ts, hts⟩ := update_ready_shape
      { addIn (addOut { n with arcs := dset n.arcs aid (some a) } r1 r2.nid aid) r2 r1.nid aid with
          name_node := dset (addIn (addOut { n with arcs := dset n.arcs aid (some a) }
            r1 r2.nid aid) r2 r1.nid aid).name_node a.name (.ar aid)
          id_name := dset (addIn (addOut { n with arcs := dset n.arcs aid (some a) }
            r1 r2.nid aid) r2 r1.nid aid).id_name aid a.name
          adj := dset (addIn (addOut { n with arcs := dset n.arcs aid (some a) }
            r1 r2.nid aid) r2 r1.nid aid).adj (r1.nid, r2.nid) aid }
    rw [h] at hts
    have hn' : n' = _ := hts
    have harcs : n'.arcs = dset n.arcs aid (some a) := by
      rw [hn']
      show (addIn (addOut { n with arcs := dset n.arcs aid (some a) } r1 r2.nid aid)
        r2 r1.nid aid).arcs = _
      rw [addIn_arcs, addOut_arcs]
    refine ⟨a, ?_, hann⟩
    unfold getArc
    rw [harcs, dget_dset_self]

/-- C5: in Scenario A, three successive `fire_transition(T1)` calls each
return `True` and leave `P1 = {red: 0}`, `P2 = {red: 3}`; the fourth
returns `False` and changes no marking. -/
theorem claim5_scenario_a :
    retP (fire_transition netA 3) = some true ∧
    retP (fire_transition netA1 3) = some true ∧
    retP (fire_transition netA2 3) = some true ∧
    (dget netA3.places 1).map (fun p => p.marking) = some [("red", 0)] ∧
    (dget netA3.places 2).map (fun p => p.marking) = some [("red", 3)] ∧
    retP (fire_transition netA3 3) = some false ∧
    netA4.places = netA3.places :=
  ⟨rfl, rfl, rfl, rfl, rfl, rfl, by decide⟩

/-- C1 counterexample: each arc passes the any-one-color readiness test
against the same single token, the fire succeeds, and the place's count
is driven to `-1` — no rejection happens. -/
theorem claim1_counterexample :
    retP (fire_transition netC1 3) = some true ∧
    (dget (stP (fire_transition netC1 3)).places 1).map (fun p => p.marking) =
      some [("0", -1)] :=
  ⟨rfl, rfl⟩

/-- C2 counterexample: the fire succeeds, both arc annotations dictate
one `red` in and one `red` out, yet the net-wide `red` total falls from
`1` to `0` — the produced token is silently destroyed because `P2`'s
marking lacks the key. -/
theorem claim2_counterexample :
    retP (fire_transition netC2 3) = some true ∧
    (dget netC2.transitions 3).map (fun t => (t.in_arcs, t.out_arcs)) = some ([4], [5]) ∧
    annTotal netC2.arcs [4] "red" = 1 ∧
    annTotal netC2.arcs [5] "red" = 1 ∧
    colorTotal netC2 "red" = 1 ∧
    colorTotal (stP (fire_transition netC2 3)) "red" = 0 :=
  ⟨rfl, rfl, rfl, rfl, rfl, rfl⟩

/-- C4 counterexample: a successful `on_fire_transition` consumes the
input tokens but performs no readiness recompute, leaving `T1`'s cached
status `'ready'` although a fresh check against the emptied `P1` would
say `'unready'`. -/
theorem claim4_counterexample :
    retP (on_fire_transition netB 3) = some true ∧ ¬ Fresh netB1 :=
  ⟨rfl, by decide⟩

/-- C6 counterexample: the started firing completes at `tick(2)` and is
reported in the completed list, but the out-arc annotation `{red: 1}` is
not added to the destination: `P2`'s marking stays empty. -/
theorem claim6_counterexample :
    retP (on_fire_transition netC6 3) = some true ∧
    tick netC6a 2 = .ok ([tC6.name], netC6f) ∧
    tC6.name = "T1" ∧
    (dget netC6.places 2).map (fun p => p.marking) = some [] ∧
    (dget netC6f.places 2).map (fun p => p.marking) = some [] := by
  refine ⟨rfl, ?_, rfl, rfl, rfl⟩
  have htk : tickT tC6 2 = (true, { tC6 with time := 0 }) := by
    unfold tickT
    rw [if_pos (show tC6.work_status = "firing" from rfl)]
    have hle : tC6.time - 2 ≤ 0 := by
      rw [show tC6.time = (2 : Rat) from rfl]
      norm_num
    simp only [if_pos hle]
  have h1 : tick netC6a 2 = tickGo 2 netC6a [3] [] := rfl
  rw [h1, tickGo_cons_true (show dget netC6a.transitions 3 = some tC6 from rfl)
    (by rw [htk]) [] []]
  simp only [htk]
  rw [show fireOutputs (writeT netC6a 3 { tC6 with time := 0 })
    ({ tC6 with time := 0 } : TransitionData).out_arcs = .ok netC6m from rfl]
  dsimp only
  rw [show update_ready_transition (stopFiring netC6m 3) = .ok netC6f from rfl]
  rfl

/-- C9: `add_arc` on two Places raises (`AttributeError` at `arc.name`,
the `.error` here) instead of debug-logging, and before raising it has
already registered the half-initialized arc under its id and wired both
nodes' neighbor and arc indexes; only the name/id/adjacency indexes
remain untouched. -/
theorem claim9_invalid_arc_registers :
    add_arc netC9 (.place 1) (.place 2) 7 =
      .error (stE (add_arc netC9 (.place 1) (.place 2) 7)) ∧
    (stE (add_arc netC9 (.place 1) (.place 2) 7)).arcs = [(7, none)] ∧
    (dget (stE (add_arc netC9 (.place 1) (.place 2) 7)).places 1).map
      (fun p => (p.outs, p.out_arcs)) = some ([2], [7]) ∧
    (dget (stE (add_arc netC9 (.place 1) (.place 2) 7)).places 2).map
      (fun p => (p.ins, p.in_arcs)) = some ([1], [7]) ∧
    (stE (add_arc netC9 (.place 1) (.place 2) 7)).name_node = netC9.name_node ∧
    (stE (add_arc netC9 (.place 1) (.place 2) 7)).adj = netC9.adj ∧
    (stE (add_arc netC9 (.place 1) (.place 2) 7)).id_name = netC9.id_name :=
  ⟨rfl, rfl, rfl, rfl, rfl, rfl, rfl⟩

/-- Witness: the amended C1 theorem applied to Scenario A's first fire,
instantiated at the first place entry and its first marking entry. -/
theorem claim1_nonnegativity_witness : 0 ≤ kvA1.2 :=
  claim1_nonnegativity netA netA1 3 tA (by decide) rfl rfl (by decide)
    eA1 (by decide) kvA1 (by decide)

/-- Witness: the amended C2 theorem applied to Scenario A's first fire. -/
theorem claim2_token_conservation_witness :
    colorTotal netA1 "red" =
      colorTotal netA "red" - annTotal netA.arcs tA.in_arcs "red" +
        annTotal netA.arcs tA.out_arcs "red" :=
  claim2_token_conservation netA netA1 3 tA "red" (by decide) rfl rfl
    (fun aid haid => by
      rcases List.mem_singleton.mp (show aid ∈ [4] from haid) with rfl
      exact ⟨arcA4, 1, pA1, rfl, rfl, rfl, by decide⟩)
    (fun aid haid => by
      rcases List.mem_singleton.mp (show aid ∈ [5] from haid) with rfl
      exact ⟨arcA5, 2, (dget netA.places 2).getD (mkPlace "" []), rfl, rfl, rfl, by decide⟩)

/-- Witness: C3 applied to Scenario A's two arcs. -/
theorem claim3_arc_ready_witness :
    (arc_ready netA arcA4 = some true ↔
      ∃ kw ∈ arcA4.ann, ∃ v, dget pA1.marking kw.1 = some v ∧ v - kw.2 ≥ 0) ∧
    arc_ready netA arcA5 = some false :=
  ⟨(claim3_arc_ready netA arcA4).1 1 pA1 rfl rfl rfl (by decide),
   (claim3_arc_ready netA arcA5).2 rfl⟩

/-- Witness: the amended C4 theorem applied to Scenario A's first fire. -/
theorem claim4_status_fresh_witness : Fresh netA1 :=
  (claim4_status_fresh netA (by decide)).2.2.1 3 netA1 rfl

/-- Witness: the amended C6 theorem applied to `netB`'s started firing,
with `D = 2`, `d1 = d2 = 1`. -/
theorem claim6_two_phase_witness :
    ∃ n2 n3,
      tick netB1 1 = .ok ([], n2) ∧
      n2.places = netB1.places ∧
      dget n2.transitions 3 = some { t1B with time := t1B.consumption - 1 } ∧
      t1B.work_status = "firing" ∧
      tick n2 1 = .ok ([t1B.name], n3) ∧
      (∃ u, dget n3.transitions 3 = some u ∧ u.work_status = "unfiring" ∧ u.time = 0) ∧
      n3.places = netB1.places.map (fun e => (e.1, { e.2 with
        marking := e.2.marking.map (fun kv =>
          (kv.1, kv.2 + outSum netB1.arcs t1B.out_arcs e.1 kv.1)) })) :=
  claim6_two_phase netB netB1 3 t1B 1 1 rfl rfl (by decide) (by decide) (by decide)
    (by rw [show t1B.consumption = (2 : Rat) from rfl]; norm_num)
    (by decide) (by decide)
    (by rw [show t1B.consumption = (2 : Rat) from rfl]; norm_num)
    (by rw [show t1B.consumption = (2 : Rat) from rfl]; norm_num)
    (by decide) (by decide)

/-- Witness: C7 applied to Scenario A's failing fourth fire. -/
theorem claim7_failure_atomic_witness :
    netA4.places = netA3.places ∧
    netA4.transitions.map (fun e => (e.1, e.2.work_status, e.2.time)) =
      netA3.transitions.map (fun e => (e.1, e.2.work_status, e.2.time)) :=
  claim7_failure_atomic netA3 netA4 3 (Or.inl rfl)

/-- Witness: C8 applied to Scenario A after one fire. -/
theorem claim8_reset_exact_idempotent_witness :
    (∀ e ∈ (applyOps netA ([Op.fire 3] ++ [Op.doReset])).places,
      e.2.marking = e.2.initial_marking) ∧
    (applyOps netA ([Op.fire 3] ++ [Op.doReset, Op.doReset])).places.map
      (fun e => (e.1, e.2.marking)) =
      (applyOps netA ([Op.fire 3] ++ [Op.doReset])).places.map (fun e => (e.1, e.2.marking)) :=
  claim8_reset_exact_idempotent netA [Op.fire 3] (by decide) (by decide) (by decide)

/-- Witness: C10 applied to the first registered arc of the C1 net. -/
theorem claim10_default_weight_witness :
    ∃ a, getArc netC1m 4 = some a ∧ a.ann = [("0", 1)] :=
  @claim10_default_weight netC1b netC1m (.place 1) (.trans 3) 4 rfl
